import Mathlib

/-!
Verification of the smart-link-formatter plugin's core logic, as a shallow
embedding in Lean.  The repository ships several historical variants of the
same modules; where the claims cite two diverging variants both are embedded,
in namespaces `Part001` (the feature-complete bundle `src/unnamed/part_001`,
third document) and `ClientsTs` (the second document of `src/src/clients.ts`).
Strings are modelled as `String`/`List Char`; JavaScript objects
(`Record<string, string | undefined>`) as `String → Option String`;
the external `moment` date library as an abstract `DateLib` record.
-/

/-- Left-brace character (written via its code point to keep source scanning simple). -/
def lbrace : Char := Char.ofNat 123

/-- Right-brace character. -/
def rbrace : Char := Char.ofNat 125

/-- Backtick character. -/
def backtickChar : Char := Char.ofNat 96

/-- Zero-width-space character `​`, the placeholder BUFFER marker of `src/src/main.ts`. -/
def zwsp : Char := Char.ofNat 0x200B

/-- The set recognised by JavaScript's `\s` and `String.prototype.trim`
(whitespace and line terminators; the zero-width space `​` is *not* in it). -/
def jsWhitespace (c : Char) : Bool :=
  c = ' ' || c = '\t' || c = '\n' || c = Char.ofNat 11 || c = Char.ofNat 12 || c = '\r' ||
  c = Char.ofNat 0xa0 || c = Char.ofNat 0x1680 ||
  (0x2000 ≤ c.toNat && c.toNat ≤ 0x200a) ||
  c = Char.ofNat 0x2028 || c = Char.ofNat 0x2029 || c = Char.ofNat 0x202f ||
  c = Char.ofNat 0x205f || c = Char.ofNat 0x3000 || c = Char.ofNat 0xfeff

/-- JavaScript's line terminators: the characters the regex `.` does not
match (without the `s` flag) and at which (without the `m` flag) `$` cannot
be crossed: LF, CR, LS and PS. -/
def jsLineTerminator (c : Char) : Bool :=
  c = '\n' || c = '\r' || c = Char.ofNat 0x2028 || c = Char.ofNat 0x2029

/-- JavaScript `String.prototype.trim` on a character list. -/
def jsTrimL (l : List Char) : List Char :=
  ((l.dropWhile jsWhitespace).reverse.dropWhile jsWhitespace).reverse

/-- JavaScript `String.prototype.trim`. -/
def jsTrim (s : String) : String := String.mk (jsTrimL s.data)

/-- Metadata object produced by a client: a flat mapping from field name to an
optional string value (`Record<string, string | undefined>`). -/
abbrev Metadata := String → Option String

/-- Abstract model of the external `moment` date library as used by
`formatTemplate`: a validity test (`moment(value).isValid()`) and a renderer
(`moment(value).format(fmt)`).  The library is an external dependency of the
repository, so it is kept abstract; theorems quantify over it. -/
structure DateLib where
  isValid : String → Bool
  render : String → String → String

namespace Part001

/-- The date-valued metadata fields of `formatTemplate`
(`src/unnamed/part_001` line 976: `const dateFields = ['upload_date', 'created_at']`). -/
def dateFields : List String := ["upload_date", "created_at"]

/-- The conditional-expression test `key.match(/^([^?|]+)\?(.*)$/)` of
`formatTemplate` (part_001 line 939): the key is a conditional exactly when its
first `?`-or-`|` character is a `?` at position at least 1 **and** the text
after that `?` contains no line terminator (the regex's `.` does not match
line terminators and its `$` only matches at the end of the input, so a
newline after the `?` makes the match fail); the field is the text before
that `?` and the branch text everything after it. -/
def condSplit (key : String) : Option (String × String) :=
  match key.data.findIdx? (fun c => c = '?' || c = '|') with
  | some i =>
    if 0 < i ∧ key.data.get? i = some '?' ∧
        (key.data.drop (i + 1)).all (fun c => !jsLineTerminator c) then
      some (String.mk (key.data.take i), String.mk (key.data.drop (i + 1)))
    else none
  | none => none

/-- The branch-separator scan of `formatTemplate` (part_001 lines 948-961):
looking for the least index `i ≥ 1` with `branches[i] = ':'` and
`branches[i-1] ≠ '\\'`.  `prev` is the character at index `i - 1`. -/
def colonScan (prev : Char) (i : Nat) : List Char → Option Nat
  | [] => none
  | c :: rest => if c = ':' ∧ prev ≠ '\\' then some i else colonScan c (i + 1) rest

/-- Index of the first unescaped `:` at position ≥ 1 of the branch text
(the JS loop `for (let i = 1; i < branches.length; i++)`). -/
def colonIdx (branches : List Char) : Option Nat :=
  match branches with
  | [] => none
  | c :: rest => colonScan c 1 rest

/-- The unescaping step `.replace(/\\:/g, ':')` applied to the chosen branch:
each (leftmost-first) backslash-colon pair becomes a colon. -/
def unescapeColons : List Char → List Char
  | [] => []
  | [c] => [c]
  | c1 :: c2 :: rest =>
    if c1 = '\\' ∧ c2 = ':' then ':' :: unescapeColons rest
    else c1 :: unescapeColons (c2 :: rest)

/-- JavaScript `key.split('|')` on a character list: split at every `|`. -/
def splitPipe : List Char → List (List Char)
  | [] => [[]]
  | c :: rest =>
    match splitPipe rest with
    | [] => [[c]]
    | h :: t => if c = '|' then [] :: h :: t else (c :: h) :: t

/-- The replacement callback of `formatTemplate`'s
`result.replace(/{([^{}]+?)}/g, (match, key) => ...)` (part_001 lines 937-982):
conditional expressions `field?ifPresent:ifAbsent`, else `variable` or
`variable|format`, with `url` resolving to the url argument and undefined
metadata values rendering as the empty string. -/
def evalExpr (dl : DateLib) (metadata : Metadata) (url : String) (key : String) : String :=
  match condSplit key with
  | some (fieldRaw, branches) =>
    let fieldName := jsTrim fieldRaw
    let fieldValue : Option String := if fieldName = "url" then some url else metadata fieldName
    let isPresent : Bool := match fieldValue with | none => false | some v => v != ""
    match colonIdx branches.data with
    | some i =>
      if isPresent then String.mk (unescapeColons (branches.data.take i))
      else String.mk (unescapeColons (branches.data.drop (i + 1)))
    | none => if isPresent then String.mk (unescapeColons branches.data) else ""
  | none =>
    let parts := (splitPipe key.data).map (fun l => jsTrim (String.mk l))
    let varName := parts.headD ""
    let fmt? := parts.get? 1
    if varName = "url" then url
    else
      match metadata varName with
      | none => ""
      | some value =>
        match fmt? with
        | some f => if f ≠ "" ∧ varName ∈ dateFields ∧ dl.isValid value then dl.render value f else value
        | none => value

/-- One step of the global non-greedy regex replace
`result.replace(/{([^{}]+?)}/g, f)`, scanning character by character.  The
first argument is `none` outside any candidate expression, and `some buf`
(content read so far, reversed) after an opening brace whose expression is
still open.  A brace-free run of at least one character closed by `}` is a
match and is replaced by `f` applied to it; `{}` and unclosed or nested
opening braces are emitted verbatim, exactly as the regex engine leaves them. -/
def replaceExprs (f : String → String) : Option (List Char) → List Char → List Char
  | none, [] => []
  | none, c :: rest =>
    if c = lbrace then replaceExprs f (some []) rest else c :: replaceExprs f none rest
  | some buf, [] => lbrace :: buf.reverse
  | some buf, c :: rest =>
    if c = rbrace then
      if buf = [] then lbrace :: rbrace :: replaceExprs f none rest
      else (f (String.mk buf.reverse)).data ++ replaceExprs f none rest
    else if c = lbrace then
      (lbrace :: buf.reverse) ++ replaceExprs f (some []) rest
    else replaceExprs f (some (c :: buf)) rest

/-- A single substitution pass of `formatTemplate` over the whole template. -/
def substPass (dl : DateLib) (metadata : Metadata) (url : String) (t : String) : String :=
  String.mk (replaceExprs (evalExpr dl metadata url) none t.data)

/-- The iterative fixed-point loop of `formatTemplate` (part_001 lines 931-985):
`while (result !== previousResult) { previousResult = result; result = result.replace(...) }`.
The loop is modelled with explicit fuel; the JS function returns `r` exactly
when some fuel yields `some r`, and diverges exactly when every fuel yields
`none`. -/
def formatTemplate (dl : DateLib) (metadata : Metadata) (url : String) : Nat → String → Option String
  | 0, _ => none
  | fuel + 1, t =>
    let t2 := substPass dl metadata url t
    if t2 = t then some t else formatTemplate dl metadata url fuel t2

/-- Denotation of the JS `formatTemplate`: it terminates on `t` with result `r`. -/
def FormatsTo (dl : DateLib) (metadata : Metadata) (url : String) (t r : String) : Prop :=
  ∃ fuel, formatTemplate dl metadata url fuel t = some r

/-- Termination of the JS `formatTemplate` while-loop on template `t`. -/
def Converges (dl : DateLib) (metadata : Metadata) (url : String) (t : String) : Prop :=
  ∃ r, FormatsTo dl metadata url t r

/-- Brace character test. -/
def isBrace (c : Char) : Bool := c = lbrace || c = rbrace

/-- Number of brace characters in a list. -/
def countB (l : List Char) : Nat := l.countP isBrace

/-- No brace character occurs in the list. -/
def braceFreeL (l : List Char) : Bool := l.all (fun c => !isBrace c)

/-- A string without brace characters; substituting such values cannot create
new `{...}` expressions. -/
def braceFree (s : String) : Bool := braceFreeL s.data

/-- The pending output of the scanner state: what `replaceExprs` emits for the
text read so far if no further match completes at the current position. -/
def pendingText : Option (List Char) → List Char → List Char
  | none, cs => cs
  | some buf, cs => lbrace :: (buf.reverse ++ cs)

/-- Scanner-state invariant: an open expression buffer never holds braces. -/
def stOk : Option (List Char) → Prop
  | none => True
  | some buf => braceFreeL buf = true

/-- The branch selected by a conditional expression, as computed by the code
(part_001 lines 946-962): the branch text is split at the first unescaped `:`
at index ≥ 1, the present side before it, the absent side after it, and the
chosen side gets `\:` unescaped; with no such `:` the present side is the whole
branch text and the absent side is empty. -/
def chosenBranch (present : Bool) (branches : List Char) : List Char :=
  match colonIdx branches with
  | some i =>
    if present then unescapeColons (branches.take i)
    else unescapeColons (branches.drop (i + 1))
  | none => if present then unescapeColons branches else []

end Part001

/-- A trivial date library used to instantiate theorems at concrete inputs. -/
def dl0 : DateLib := ⟨fun _ => false, fun _ _ => ""⟩

/-- Empty metadata. -/
def M0 : Metadata := fun _ => none

/-- Metadata with only `title = "X"`. -/
def M1 : Metadata := fun k => if k = "title" then some "X" else none

/-- Self-referential metadata: field `a` holds the expression for `b` and vice
versa, so template substitution alternates between two templates forever. -/
def cexMeta : Metadata := fun k =>
  if k = "a" then some "\x7bb\x7d" else if k = "b" then some "\x7ba\x7d" else none

/-- JavaScript `String.prototype.indexOf` for a pattern list: index of the
first occurrence of `pat` as a contiguous sublist. -/
def firstIndexOfSub (pat : List Char) : List Char → Option Nat
  | [] => if pat = [] then some 0 else none
  | c :: rest =>
    if pat.isPrefixOf (c :: rest) then some 0
    else (firstIndexOfSub pat rest).map (fun i => i + 1)

namespace ClientsTs

/-- Scanning for the closing bracket of `/\[(.*?)\]/` from just after a `[`:
the lazy `.*?` takes characters up to the first `]`; `.` does not match a
newline, which aborts the attempt at this start position. -/
def scanClose : List Char → Option (List Char × List Char)
  | [] => none
  | c :: rest =>
    if c = ']' then some ([], rest)
    else if c = '\n' then none
    else (scanClose rest).map (fun p => (c :: p.1, p.2))

/-- First match of `formattedText.match(/\[(.*?)\]/)` (clients.ts line 352):
returns the text before the match, the captured content, and the text after
the match; the regex engine advances one position when a `[` has no closing
`]` before a newline. -/
def findBracket : List Char → Option (List Char × List Char × List Char)
  | [] => none
  | c :: rest =>
    if c = '[' then
      match scanClose rest with
      | some (content, post) => some ([], content, post)
      | none => (findBracket rest).map (fun p => (c :: p.1, p.2.1, p.2.2))
    else (findBracket rest).map (fun p => (c :: p.1, p.2.1, p.2.2))

/-- The `wrapInMarkdownLink` of `src/src/clients.ts` (second document, lines
351-363): with a bracketed span of non-empty content, that content becomes the
link label and the trimmed tail after the matched text is appended after a
space; otherwise the whole trimmed text becomes the label of a synthesized
link.  The tail is located with `indexOf` on the matched text, as in the
source. -/
def wrapInMarkdownLink (formattedText url : String) : String :=
  match findBracket formattedText.data with
  | some (_, content, _) =>
    if content ≠ [] then
      let matched := '[' :: (content ++ [']'])
      let idx := (firstIndexOfSub matched formattedText.data).getD 0
      let suffix := jsTrim (String.mk (formattedText.data.drop (idx + matched.length)))
      "[" ++ String.mk content ++ "](" ++ url ++ ")" ++
        (if suffix ≠ "" then " " ++ suffix else "")
    else "[" ++ jsTrim formattedText ++ "](" ++ url ++ ")"
  | none => "[" ++ jsTrim formattedText ++ "](" ++ url ++ ")"

end ClientsTs

namespace Part001

/-- Scanning for the closing bracket of `/(?<!\\)\[(.*?)(?<!\\)\]/` from just
after the opening `[`: the first `]` not preceded by a backslash closes the
span; a newline aborts this start position.  `prev` is the previous character
(initially the `[` itself). -/
def scanCloseEsc (prev : Char) : List Char → Option (List Char × List Char)
  | [] => none
  | c :: rest =>
    if c = ']' ∧ prev ≠ '\\' then some ([], rest)
    else if c = '\n' then none
    else (scanCloseEsc c rest).map (fun p => (c :: p.1, p.2))

/-- First match of the escape-aware bracket regex of part_001 line 999: an
unescaped `[` (not preceded by `\`) whose content runs to the first unescaped
`]` on the same line. -/
def findBracketEsc : Option Char → List Char → Option (List Char × List Char × List Char)
  | _, [] => none
  | prev, c :: rest =>
    if c = '[' ∧ prev ≠ some '\\' then
      match scanCloseEsc '[' rest with
      | some (content, post) => some ([], content, post)
      | none => (findBracketEsc (some c) rest).map (fun p => (c :: p.1, p.2.1, p.2.2))
    else (findBracketEsc (some c) rest).map (fun p => (c :: p.1, p.2.1, p.2.2))

/-- The embed test `formattedText.startsWith("!")` of part_001 line 995. -/
def isEmbedText (s : String) : Bool :=
  match s.data with
  | c :: _ => c = '!'
  | [] => false

/-- The `textToProcess` of part_001 line 996: the text with a leading embed
marker stripped. -/
def textToProcess (s : String) : String :=
  if isEmbedText s then String.mk (s.data.drop 1) else s

/-- The `wrapInMarkdownLink` of part_001 (third document, lines 994-1012):
strip a leading `!`, find the first unescaped bracketed span; with non-empty
content build `[content](url)` and append the untrimmed tail after the match
(located by `indexOf` on the matched text, as in the source); with no such
span return the trimmed text **unchanged** (no link synthesized); finally
re-prepend `!` for embeds. -/
def wrapInMarkdownLink (formattedText url : String) : String :=
  let ttp := textToProcess formattedText
  let link :=
    match findBracketEsc none ttp.data with
    | some (_, content, _) =>
      if content ≠ [] then
        let matched := '[' :: (content ++ [']'])
        let idx := (firstIndexOfSub matched ttp.data).getD 0
        let suffix := String.mk (ttp.data.drop (idx + matched.length))
        "[" ++ String.mk content ++ "](" ++ url ++ ")" ++ suffix
      else jsTrim ttp
    | none => jsTrim ttp
  if isEmbedText formattedText then "!" ++ link else link

end Part001

namespace ClientsTs

/-- Value of a run of decimal digits. -/
def digitsToNat (l : List Char) : Nat :=
  l.foldl (fun acc c => 10 * acc + (c.toNat - 48)) 0

/-- Model of the JavaScript `Number()` conversion restricted to the inputs this
code path produces: the empty string converts to `0` and a run of decimal
digits to its value; everything else is `NaN`, represented as `none`.  (Exotic
numeric notations such as fractions or hex are outside the timestamp claims'
scope.) -/
def jsNumberNat (s : String) : Option Nat :=
  if s.data = [] then some 0
  else if s.data.all Char.isDigit then some (digitsToNat s.data) else none

/-- The parameter selection
`url.searchParams.get("t") || url.searchParams.get("time_continue") || ""` of
`getYouTubeTimestamp` (clients.ts lines 507-508): the first present and
non-empty parameter, else the empty string. -/
def jsOrParam (t tc : Option String) : String :=
  match t with
  | some v =>
    if v ≠ "" then v
    else match tc with
      | some w => if w ≠ "" then w else ""
      | none => ""
  | none =>
    match tc with
    | some w => if w ≠ "" then w else ""
    | none => ""

/-- The `timestamp.replace("s", "")` of clients.ts line 509: a string-argument
`replace` removes only the first occurrence of `s`. -/
def removeFirstS : List Char → List Char
  | [] => []
  | c :: rest => if c = 's' then rest else c :: removeFirstS rest

/-- `YouTubeClient.getYouTubeTimestamp` (clients.ts lines 506-511) composed
with the `Number()` conversion: the numeric seconds value read from the `t` or
`time_continue` query parameter, `none` for `NaN`. -/
def getYouTubeTimestamp (t tc : Option String) : Option Nat :=
  jsNumberNat (String.mk (removeFirstS (jsOrParam t tc).data))

/-- `n.toString().padStart(2, "0")`. -/
def pad2 (n : Nat) : String :=
  if (toString n).data.length < 2 then "0" ++ toString n else toString n

/-- The timestamp-string construction of `YouTubeClient.format` (clients.ts
lines 471-484): empty for an absent (`NaN`) or zero value; above one hour
`@hours:minutes:seconds` with unpadded hours and zero-padded minutes and
seconds; below one hour `@minutes:seconds` with unpadded minutes and
zero-padded seconds. -/
def youtubeTimestampString (seconds? : Option Nat) : String :=
  match seconds? with
  | none => ""
  | some 0 => ""
  | some s =>
    let hours := s / 3600
    let mins := (s % 3600) / 60
    let secs := s % 60
    if hours > 0 then "@" ++ toString hours ++ ":" ++ pad2 mins ++ ":" ++ pad2 secs
    else "@" ++ toString mins ++ ":" ++ pad2 secs

/-- The full derivation from query parameters to the `{timestamp}` metadata
value. -/
def timestampFromParams (t tc : Option String) : String :=
  youtubeTimestampString (getYouTubeTimestamp t tc)

end ClientsTs

/-- List-prefix test used to model `^`-anchored literal regex alternatives. -/
def startsWithL (pat l : List Char) : Bool := pat.isPrefixOf l

/-- String prefix test. -/
def strStartsWith (s pat : String) : Bool := startsWithL pat.data s.data

/-- List-suffix test used to model `$`-anchored regex alternatives. -/
def endsWithL (pat l : List Char) : Bool := startsWithL pat.reverse l.reverse

/-- A character matched by the regex class `[\w-]`. -/
def wordDashChar (c : Char) : Bool :=
  c.isAlpha || c.isDigit || c = '_' || c = '-'

namespace ClientsTs

/-- `YouTubeClient.matches` (clients.ts lines 494-499): the anchored regex
`^https?:\/\/(www\.youtube\.com|youtu\.be)\/`, expanded into its four literal
prefixes. -/
def youtubeMatches (url : String) : Bool :=
  strStartsWith url "http://www.youtube.com/" || strStartsWith url "https://www.youtube.com/" ||
    strStartsWith url "http://youtu.be/" || strStartsWith url "https://youtu.be/"

/-- `YouTubeMusicClient.matches` (clients.ts lines 600-602):
`^https?:\/\/music\.youtube\.com\/`. -/
def youtubeMusicMatches (url : String) : Bool :=
  strStartsWith url "http://music.youtube.com/" ||
    strStartsWith url "https://music.youtube.com/"

/-- The image extensions of `ImageClient.matches` (clients.ts lines 614-619). -/
def imageExts : List String :=
  ["jpg", "jpeg", "png", "gif", "bmp", "tiff", "ico", "webp", "svg", "heic", "heif"]

/-- `ImageClient.matches`: the case-insensitive suffix regex
`\.(jpg|jpeg|...)$/i`, modelled by lowercasing the url (ASCII). -/
def imageMatches (url : String) : Bool :=
  imageExts.any (fun e => endsWithL ("." ++ e).data (url.data.map Char.toLower))

/-- `GitHubClient.matches` (clients.ts lines 651-653):
`^https?:\/\/github\.com\/[\w-]+\/[\w-]+(\/)?$`. -/
def githubMatches (url : String) : Bool :=
  let rest? : Option (List Char) :=
    if strStartsWith url "http://github.com/" then
      some (url.data.drop ("http://github.com/" : String).data.length)
    else if strStartsWith url "https://github.com/" then
      some (url.data.drop ("https://github.com/" : String).data.length)
    else none
  match rest? with
  | none => false
  | some rest =>
    let seg1 := rest.takeWhile wordDashChar
    let r1 := rest.drop seg1.length
    if seg1 = [] then false
    else
      match r1 with
      | '/' :: r2 =>
        let seg2 := r2.takeWhile wordDashChar
        let r3 := r2.drop seg2.length
        if seg2 = [] then false else r3 = [] || r3 = ['/']
      | _ => false

end ClientsTs

/-- A client as dispatch sees it: a stable name and the url matcher.  The
network-facing `fetchMetadata` and the `format` step are modelled elsewhere;
dispatch (main.ts line 125) consults only `matches`. -/
structure Client where
  name : String
  urlMatches : String → Bool

namespace ClientsTs

/-- The `YouTubeClient` singleton's dispatch-relevant data. -/
def YouTubeClient : Client := ⟨"youtube", youtubeMatches⟩

/-- The `YouTubeMusicClient` singleton. -/
def YouTubeMusicClient : Client := ⟨"youtube-music", youtubeMusicMatches⟩

/-- The `ImageClient` singleton. -/
def ImageClient : Client := ⟨"image", imageMatches⟩

/-- The `GitHubClient` singleton. -/
def GitHubClient : Client := ⟨"github", githubMatches⟩

/-- The catch-all `DefaultClient` (clients.ts lines 703-724): `matches` always
returns `true`. -/
def DefaultClient : Client := ⟨"default", fun _ => true⟩

/-- The ordered client registry `CLIENTS` of clients.ts lines 726-732. -/
def CLIENTS : List Client :=
  [YouTubeClient, YouTubeMusicClient, ImageClient, GitHubClient, DefaultClient]

/-- The dispatch `CLIENTS.find(client => client.matches(clipboardText))` of
`handleFormat` (main.ts line 125). -/
def dispatch (url : String) : Option Client :=
  CLIENTS.find? (fun c => c.urlMatches url)

end ClientsTs

/-- Generic split at every occurrence of a separator character (JavaScript
`String.prototype.split` with a one-character separator). -/
def splitOnChar (sep : Char) : List Char → List (List Char)
  | [] => [[]]
  | c :: rest =>
    match splitOnChar sep rest with
    | [] => [[c]]
    | h :: t => if c = sep then [] :: h :: t else (c :: h) :: t

/-- Count of a single character in a list (`(s.match(/c/g) || []).length`). -/
def countChar (c : Char) (l : List Char) : Nat := l.countP (fun d => d = c)

/-- Left-to-right occurrence count of a pattern, advancing one character at a
time; for patterns that cannot overlap themselves (such as `<!--` and `-->`)
this equals the JavaScript global-regex match count. -/
def countOccL (pat : List Char) : List Char → Nat
  | [] => 0
  | c :: rest => (if startsWithL pat (c :: rest) then 1 else 0) + countOccL pat rest

/-- `isLink` of the utils module (part_002): the pasted text matches
`^https?:\/\//`. -/
def isLink (text : String) : Bool :=
  strStartsWith text "http://" || strStartsWith text "https://"

/-- The failure-mode enum and its rendering (the `FailureMode` module,
part_005): `alert` produces a visible failed link, `revert` the plain text. -/
inductive FailureMode where
  | alert
  | revert
deriving DecidableEq

/-- `FailureMode.format` of part_005. -/
def FailureMode.render : FailureMode → String → String
  | .alert, text => "[Failed to fetch title](" ++ text ++ ")"
  | .revert, text => text

namespace MainTs

/-- The editor state observed by `shouldReplace` (main.ts lines 151-225): the
document as its list of lines (none containing a newline), the cursor
position, and whether a selection is active. -/
structure EditorState where
  lines : List String
  cursorLine : Nat
  cursorCh : Nat
  selected : Bool

/-- `editor.getLine(cursor.line)`. -/
def getLine (st : EditorState) : String := st.lines.getD st.cursorLine ""

/-- JavaScript `line.substring(0, ch)`. -/
def substringTo (line : String) (ch : Nat) : String := String.mk (line.data.take ch)

/-- JavaScript `cursor.ch < line.length ? line[cursor.ch] : ''`. -/
def charAfterCursor (line : String) (ch : Nat) : Option Char := line.data.get? ch

/-- JavaScript `cursor.ch > 0 ? line[cursor.ch - 1] : ''`. -/
def charBeforeCursor (line : String) (ch : Nat) : Option Char :=
  if ch > 0 then line.data.get? (ch - 1) else none

/-- The test `textBeforeCursor.match(/\[.*?\]\($/)` of main.ts line 166: the
text before the cursor ends in `](` and some `[` precedes that `]` with no
newline between (the regex `.` does not match newlines). -/
def linkParenBefore (before : List Char) : Bool :=
  endsWithL ("](" : String).data before &&
    ((before.take (before.length - 2)).reverse.takeWhile (fun c => c ≠ '\n')).contains '['

/-- The fenced-code-block scan of main.ts lines 183-192: every line strictly
above the cursor whose trimmed text starts with three backticks toggles the
inside-a-code-block flag. -/
def inCodeBlockBefore (lines : List String) (cursorLine : Nat) : Bool :=
  (lines.take cursorLine).foldl
    (fun acc line =>
      if strStartsWith (jsTrim line) (String.mk [backtickChar, backtickChar, backtickChar])
      then !acc else acc)
    false

/-- The YAML-frontmatter check of main.ts lines 195-212: on line 0 a bare
`---` suppresses; further down, frontmatter opened by line 0 is still open
when no line up to and including the cursor line closes it. -/
def frontmatterSuppress (lines : List String) (cursorLine : Nat) (line : String) : Bool :=
  if cursorLine = 0 then jsTrim line == "---"
  else
    (jsTrim (lines.getD 0 "") == "---") &&
      !(((List.range cursorLine).map (fun i => i + 1)).any
        (fun i => jsTrim (lines.getD i "") == "---"))

/-- The text strictly before the cursor
(`allLines.slice(0, cursor.line).join('\n') + '\n' + textBeforeCursor`,
main.ts line 215). -/
def fullTextBefore (st : EditorState) : List Char :=
  List.intercalate ['\n'] ((st.lines.take st.cursorLine).map (fun s => s.data)) ++
    '\n' :: (getLine st).data.take st.cursorCh

/-- The paste-context classifier `shouldReplace` of main.ts lines 151-225:
non-URLs never replace; an active selection always replaces; otherwise the
cursor must not sit in an existing link target `[...](|)`, in or next to
inline code, in a fenced code block, in open YAML frontmatter, or in an
unclosed HTML comment. -/
def shouldReplace (st : EditorState) (text : String) : Bool :=
  if !isLink text then false
  else
    let line := getLine st
    if st.selected then true
    else
      let before := (substringTo line st.cursorCh).data
      let after := charAfterCursor line st.cursorCh
      if linkParenBefore before && (after == some ')') then false
      else if countChar backtickChar before % 2 = 1 then false
      else if (charBeforeCursor line st.cursorCh == some backtickChar) ||
          (after == some backtickChar) then false
      else if inCodeBlockBefore st.lines st.cursorLine then false
      else if frontmatterSuppress st.lines st.cursorLine line then false
      else if countOccL ("<!--" : String).data (fullTextBefore st) >
          countOccL ("-->" : String).data (fullTextBefore st) then false
      else true

/-- `isBlacklisted` of main.ts lines 234-250, with the WHATWG `new URL` parse
of the host platform abstracted to its observable: `none` when parsing throws
(the catch returns true), otherwise the parsed hostname.  The blacklist
setting is split at commas, trimmed, cleared of empties, and a substring test
(`hostname.includes(domain)`) is applied. -/
def isBlacklisted (host? : Option String) (blacklistedDomains : String) : Bool :=
  match host? with
  | none => true
  | some host =>
    let blacklist := ((splitOnChar ',' blacklistedDomains.data).map
      (fun l => jsTrim (String.mk l))).filter (fun d => d.data.length > 0)
    blacklist.any (fun d => (firstIndexOfSub d.data host.data).isSome)

/-- The settings fields consumed by the paste pipeline
(src/src/settings.ts lines 12-19; template overrides and title-replacement
rules are consumed by the clients' format step, not by the decision path). -/
structure Settings where
  autoLink : Bool
  pasteIntoSelection : Bool
  failureMode : FailureMode
  timeoutSeconds : Nat
  blacklistedDomains : String

/-- `shouldOverride` of main.ts lines 227-232. -/
def shouldOverride (sett : Settings) (st : EditorState) : Bool :=
  sett.pasteIntoSelection && st.selected

/-- Observable outcome of `handlePaste` (main.ts lines 95-109): either the
handler returns before `preventDefault()` — the editor's default paste then
inserts the raw clipboard text, no placeholder exists and no fetch starts —
or it intercepts: `preventDefault()` is called and `handleFormat` inserts a
placeholder and starts the asynchronous fetch. -/
inductive PasteOutcome where
  | defaultPaste
  | intercepted
deriving DecidableEq

/-- Whether the outcome involved inserting a placeholder. -/
def placeholderInserted : PasteOutcome → Bool
  | .defaultPaste => false
  | .intercepted => true

/-- Whether the outcome started a metadata fetch. -/
def startsFetch : PasteOutcome → Bool
  | .defaultPaste => false
  | .intercepted => true

/-- The decision path of `handlePaste` (main.ts lines 95-109), in source
order: auto-link toggle, clipboard and file guards (assumed present),
`shouldOverride`, `shouldReplace`, `isBlacklisted`, then interception. -/
def handlePaste (sett : Settings) (st : EditorState) (host? : Option String)
    (clip : String) : PasteOutcome :=
  if !sett.autoLink then .defaultPaste
  else if shouldOverride sett st then .defaultPaste
  else if !shouldReplace st clip then .defaultPaste
  else if isBlacklisted host? sett.blacklistedDomains then .defaultPaste
  else .intercepted

end MainTs

/-- Literal matcher: consume `lit` from the front of the input, returning the
remainder, or fail. -/
def matchLit : List Char → List Char → Option (List Char)
  | [], input => some input
  | _ :: _, [] => none
  | l :: ls, c :: cs => if c = l then matchLit ls cs else none

namespace MainTs

/-- The fixed literal opening the placeholder pattern of main.ts line 15. -/
def litOpen : List Char := ("<span class=\"link-loading\" id=\"" : String).data

/-- The mandatory id-capture head `link-placeholder-`. -/
def litIdHead : List Char := ("link-placeholder-" : String).data

/-- The literal inside the optional url attribute group. -/
def litUrlAttr : List Char := ("url=\"" : String).data

/-- The literal closing the placeholder span. -/
def litClose : List Char := (">Loading...</span>" : String).data

/-- Greedy `[^"]+`/`[^"]*` capture up to and including the closing quote:
returns the quote-free capture and the text after the quote. -/
def takeToQuote : List Char → Option (List Char × List Char)
  | [] => none
  | c :: rest =>
    if c = '"' then some ([], rest)
    else
      match takeToQuote rest with
      | none => none
      | some (a, r) => some (c :: a, r)

/-- The optional group `(?:\s+url="([^"]*)")?` of the placeholder pattern:
one or more whitespace characters, the literal `url="`, a quote-free capture,
and the closing quote.  Returns the whitespace run, the capture, and the
remainder; `none` means the group matches zero-width. -/
def tryUrlAttr (cs : List Char) : Option (List Char × List Char × List Char) :=
  let ws := cs.takeWhile jsWhitespace
  if ws = [] then none
  else
    match matchLit litUrlAttr (cs.drop ws.length) with
    | none => none
    | some r1 =>
      match takeToQuote r1 with
      | none => none
      | some (urlVal, r2) => some (ws, urlVal, r2)

/-- Attempt to match the placeholder regex of main.ts line 15,
`<span class="link-loading" id="(link-placeholder-[^"]+)"(?:\s+url="([^"]*)")?>Loading\.\.\.<\/span>(?:\u200B+)?`,
at the start of the input.  Returns the full matched text, the id capture,
the url capture (empty when the group is absent, as `match[2] || ''`
coalesces), and the remaining input after the match. -/
def tryMatchPlaceholder (cs : List Char) :
    Option (List Char × List Char × List Char × List Char) :=
  match matchLit litOpen cs with
  | none => none
  | some r1 =>
    match matchLit litIdHead r1 with
    | none => none
    | some r2 =>
      match takeToQuote r2 with
      | none => none
      | some (idTail, r3) =>
        if idTail = [] then none
        else
          let idCap := litIdHead ++ idTail
          match tryUrlAttr r3 with
          | some (ws, urlVal, r4) =>
            match matchLit litClose r4 with
            | none => none
            | some r5 =>
              let z := r5.takeWhile (fun c => c = zwsp)
              some (litOpen ++ idCap ++ '"' :: (ws ++ litUrlAttr ++ urlVal ++ '"' :: litClose) ++ z,
                idCap, urlVal, r5.drop z.length)
          | none =>
            match matchLit litClose r3 with
            | none => none
            | some r5 =>
              let z := r5.takeWhile (fun c => c = zwsp)
              some (litOpen ++ idCap ++ '"' :: litClose ++ z, idCap, [], r5.drop z.length)

/-- The inert replacement span written for an orphaned placeholder
(main.ts line 80). -/
def inactiveSpan (id url : List Char) : List Char :=
  ("<span class=\"link-loading-inactive\" id=\"" : String).data ++ id ++
    ("\" url=\"" : String).data ++ url ++ ("\">Failed to resolve</span>" : String).data

/-- The scan of `cleanupOrphanedPlaceholders` (main.ts lines 54-85) with
explicit fuel: walk the document; a placeholder-shaped span in the active set
is kept and scanning continues after it, one not in the active set is
rewritten to the inert span; other characters are copied.  (`matchAll` plus
the reverse-order `replaceRange` loop has exactly this aggregate effect, as
matches cannot overlap: the pattern's literals contain quotes, which its
captures exclude.) -/
def sweepF (active : Finset String) : Nat → List Char → List Char
  | 0, cs => cs
  | _ + 1, [] => []
  | fuel + 1, c :: cs2 =>
    match tryMatchPlaceholder (c :: cs2) with
    | none => c :: sweepF active fuel cs2
    | some (full, id, url, rest) =>
      if String.mk full ∈ active then full ++ sweepF active fuel rest
      else inactiveSpan id url ++ sweepF active fuel rest

/-- `cleanupOrphanedPlaceholders`: one sweep over the whole document (the
document length bounds the scanner's steps, each of which consumes at least
one character). -/
def cleanupOrphanedPlaceholders (active : Finset String) (doc : String) : String :=
  String.mk (sweepF active doc.data.length doc.data)

/-- Replace the first occurrence of `needle` in `hay` by `repl` — the net
effect of `indexOf` + `offsetToPos` + `replaceRange` in `replacePlaceholder`. -/
def replaceFirst (needle repl hay : List Char) : List Char :=
  match firstIndexOfSub needle hay with
  | none => hay
  | some i => hay.take i ++ repl ++ hay.drop (i + needle.length)

/-- The mutable state the placeholder protocol acts on: the document text and
the in-memory active-placeholder set. -/
structure OpState where
  doc : String
  active : Finset String

/-- `replacePlaceholder` of main.ts lines 259-286: when the exact placeholder
text still occurs in the document its first occurrence is replaced and the
call reports success, otherwise the document is untouched and it reports
failure; in **both** cases the placeholder is deleted from the active set —
the `activePlaceholders.delete` sits after the try/catch. -/
def replacePlaceholder (placeholder newText : String) (s : OpState) : Bool × OpState :=
  let found := (firstIndexOfSub placeholder.data s.doc.data).isSome
  let doc2 := if found then String.mk (replaceFirst placeholder.data newText.data s.doc.data)
    else s.doc
  (found, ⟨doc2, s.active.erase placeholder⟩)

/-- The settling phase of `handleFormat` (main.ts lines 111-149), after the
placeholder has been inserted and registered in the active set.  The race of
fetch+format against the timeout is modelled by its settled outcome:
`.ok formattedText` for a successful fetch and format, `.error ()` when the
fetch rejected, the timeout won, or the format step threw (one catch handles
all three, replacing the placeholder with the failure-mode text).  Because
the fetch is asynchronous, the document at completion time is a parameter —
other edits may have removed the placeholder meanwhile.  When the placeholder
is no longer found, the orphan sweep is triggered. -/
def handleFormatSettle (placeholder clip : String) (mode : FailureMode)
    (result : Except Unit String) (docAtCompletion : String)
    (active0 : Finset String) : OpState :=
  let s1 : OpState := ⟨docAtCompletion, insert placeholder active0⟩
  let settled :=
    match result with
    | .ok txt => replacePlaceholder placeholder txt s1
    | .error _ => replacePlaceholder placeholder (FailureMode.render mode clip) s1
  if settled.1 then settled.2
  else ⟨cleanupOrphanedPlaceholders settled.2.active settled.2.doc, settled.2.active⟩

end MainTs

namespace MainTs

/-- The structural decomposition a successful placeholder match certifies: the
id splits into the mandatory head and a non-empty quote-free tail, the middle
is either just the closing literal (no url attribute, empty url capture) or a
whitespace run followed by `url="`, the quote-free capture, and the closing
quote and literal, and the trailing run is zero-width spaces. -/
def MatchShape (full id url : List Char) : Prop :=
  ∃ idTail mid z,
    id = litIdHead ++ idTail ∧ idTail ≠ [] ∧ '"' ∉ idTail ∧ '"' ∉ url ∧
    ((mid = litClose ∧ url = []) ∨
      ∃ ws, ws ≠ [] ∧ (∀ c ∈ ws, jsWhitespace c = true) ∧
        mid = ws ++ litUrlAttr ++ url ++ '"' :: litClose) ∧
    (∀ c ∈ z, c = zwsp) ∧
    full = litOpen ++ id ++ '"' :: mid ++ z

/-- The fixed region of the inert span before its id. -/
def iA : List Char := ("<span class=\"link-loading-inactive\" id=\"" : String).data

/-- The fixed region of the inert span between its id and its url. -/
def iB : List Char := ("\" url=\"" : String).data

/-- `iB` without its leading quote. -/
def iBt : List Char := (" url=\"" : String).data

/-- The fixed region of the inert span after its url. -/
def iC : List Char := ("\">Failed to resolve</span>" : String).data

/-- `iC` without its leading quote. -/
def iCt : List Char := (">Failed to resolve</span>" : String).data

/-- The quote-free prefix of the placeholder pattern's opening literal. -/
def lo12 : List Char := ("<span class=" : String).data

/-- The opening literal after its first quote. -/
def lo18 : List Char := ("link-loading\" id=\"" : String).data

end MainTs

/-!
Theorems.  First, auxiliary lemmas about the template engine.
-/

namespace Part001

/-- Auxiliary, length-bounded form of `unescapeColons_mem`. -/
theorem unescapeColons_mem_aux (n : Nat) :
    ∀ l : List Char, l.length ≤ n → ∀ c ∈ unescapeColons l, c = ':' ∨ c ∈ l := by
  induction n with
  | zero =>
    intro l hl c hc
    rcases l with _ | ⟨c1, rest⟩
    · simp [unescapeColons] at hc
    · simp at hl
  | succ n ih =>
    intro l hl c hc
    rcases l with _ | ⟨c1, _ | ⟨c2, rest⟩⟩
    · simp [unescapeColons] at hc
    · simp [unescapeColons] at hc
      simp [hc]
    · rw [unescapeColons] at hc
      by_cases h : c1 = '\\' ∧ c2 = ':'
      · rw [if_pos h] at hc
        rcases List.mem_cons.mp hc with h1 | h1
        · left; exact h1
        · rcases ih rest (by simp at hl; omega) c h1 with h2 | h2
          · left; exact h2
          · right; simp [h2]
      · rw [if_neg h] at hc
        rcases List.mem_cons.mp hc with h1 | h1
        · right; simp [h1]
        · rcases ih (c2 :: rest) (by simp at hl ⊢; omega) c h1 with h2 | h2
          · left; exact h2
          · right
            rcases List.mem_cons.mp h2 with h3 | h3
            · simp [h3]
            · simp [h3]

/-- Every character emitted by the `\:`-unescaping is a colon or came from the input. -/
theorem unescapeColons_mem (l : List Char) :
    ∀ c ∈ unescapeColons l, c = ':' ∨ c ∈ l :=
  unescapeColons_mem_aux l.length l le_rfl

/-- Characterisation of brace-freeness. -/
theorem braceFreeL_iff (l : List Char) :
    braceFreeL l = true ↔ ∀ c ∈ l, isBrace c = false := by
  simp [braceFreeL]

/-- A brace-free list has no braces counted. -/
theorem countB_eq_zero_of_braceFree (l : List Char) (h : braceFreeL l = true) :
    countB l = 0 := by
  rw [braceFreeL_iff] at h
  simp only [countB, List.countP_eq_zero]
  intro a ha
  simp [h a ha]

/-- The colon is not a brace, so unescaping preserves brace-freeness. -/
theorem braceFreeL_unescapeColons (l : List Char) (h : braceFreeL l = true) :
    braceFreeL (unescapeColons l) = true := by
  rw [braceFreeL_iff] at h ⊢
  intro c hc
  rcases unescapeColons_mem l c hc with h1 | h1
  · subst h1; decide
  · exact h c h1

end Part001

namespace Part001

/-- `countB` of a cons. -/
theorem countB_cons (c : Char) (l : List Char) :
    countB (c :: l) = countB l + (if isBrace c then 1 else 0) := by
  simp [countB, List.countP_cons]

/-- `countB` of a cons with a brace at the head. -/
theorem countB_cons_brace (c : Char) (l : List Char) (h : isBrace c = true) :
    countB (c :: l) = countB l + 1 := by
  rw [countB_cons, h, if_pos rfl]

/-- `countB` of a cons with a non-brace head. -/
theorem countB_cons_nonbrace (c : Char) (l : List Char) (h : isBrace c = false) :
    countB (c :: l) = countB l := by
  rw [countB_cons, h]
  simp

/-- `countB` of an append. -/
theorem countB_append (a b : List Char) : countB (a ++ b) = countB a + countB b := by
  simp [countB, List.countP_append]

/-- Brace count is invariant under reversal. -/
theorem countB_reverse (l : List Char) : countB l.reverse = countB l := by
  simp [countB]

/-- Scanner step: an opening brace outside an expression opens a buffer. -/
theorem replaceExprs_none_lbrace (f : String → String) (rest : List Char) :
    replaceExprs f none (lbrace :: rest) = replaceExprs f (some []) rest := by
  simp [replaceExprs]

/-- Scanner step: any other character outside an expression is copied. -/
theorem replaceExprs_none_other (f : String → String) (c : Char) (rest : List Char)
    (hc : c ≠ lbrace) :
    replaceExprs f none (c :: rest) = c :: replaceExprs f none rest := by
  simp [replaceExprs, hc]

/-- Scanner step: `{}` is not a match and is emitted verbatim. -/
theorem replaceExprs_empty_braces (f : String → String) (rest : List Char) :
    replaceExprs f (some []) (rbrace :: rest) = lbrace :: rbrace :: replaceExprs f none rest := by
  simp [replaceExprs]

/-- Scanner step: a closing brace after a nonempty buffer completes a match,
which is replaced by the callback's output. -/
theorem replaceExprs_close (f : String → String) (buf rest : List Char) (hbuf : buf ≠ []) :
    replaceExprs f (some buf) (rbrace :: rest) =
      (f (String.mk buf.reverse)).data ++ replaceExprs f none rest := by
  simp [replaceExprs, hbuf]

/-- Scanner step: a second opening brace abandons the pending one (the regex
cannot match a brace inside `[^{}]`), emitting it verbatim. -/
theorem replaceExprs_reopen (f : String → String) (buf rest : List Char) :
    replaceExprs f (some buf) (lbrace :: rest) =
      (lbrace :: buf.reverse) ++ replaceExprs f (some []) rest := by
  have h : lbrace ≠ rbrace := by decide
  simp [replaceExprs, h]

/-- Scanner step: a non-brace character extends the open buffer. -/
theorem replaceExprs_extend (f : String → String) (buf rest : List Char) (c : Char)
    (h1 : c ≠ rbrace) (h2 : c ≠ lbrace) :
    replaceExprs f (some buf) (c :: rest) = replaceExprs f (some (c :: buf)) rest := by
  simp [replaceExprs, h1, h2]

/-- Scanner step: an expression left open at the end of input is emitted verbatim. -/
theorem replaceExprs_open_end (f : String → String) (buf : List Char) :
    replaceExprs f (some buf) [] = lbrace :: buf.reverse := by
  simp [replaceExprs]

/-- The scanner either returns its input unchanged or strictly decreases the
number of brace characters: each completed match consumes two braces and, when
the callback only produces brace-free strings, inserts a brace-free
replacement, while all other characters are copied verbatim. -/
theorem replaceExprs_ident_or_dec (f : String → String)
    (hf : ∀ s : String, braceFreeL s.data = true → countB (f s).data = 0) :
    ∀ (cs : List Char) (st : Option (List Char)), stOk st →
      replaceExprs f st cs = pendingText st cs ∨
        countB (replaceExprs f st cs) < countB (pendingText st cs) := by
  have hbl : isBrace lbrace = true := by decide
  have hbr : isBrace rbrace = true := by decide
  intro cs
  induction cs with
  | nil =>
    intro st _
    left
    rcases st with _ | buf
    · rfl
    · simp [replaceExprs_open_end, pendingText]
  | cons c rest ih =>
    intro st hst
    rcases st with _ | buf
    · by_cases hc : c = lbrace
      · subst hc
        have h2 := ih (some []) (by simp [stOk, braceFreeL])
        rw [replaceExprs_none_lbrace]
        simpa [pendingText] using h2
      · rw [replaceExprs_none_other f c rest hc]
        rcases ih none trivial with h1 | h1
        · left
          simp only [pendingText] at h1 ⊢
          rw [h1]
        · right
          simp only [pendingText] at h1 ⊢
          rw [countB_cons, countB_cons]
          omega
    · have hstb : braceFreeL buf = true := hst
      by_cases hc : c = rbrace
      · subst hc
        by_cases hbuf : buf = []
        · subst hbuf
          rw [replaceExprs_empty_braces]
          rcases ih none trivial with h1 | h1
          · left
            simp only [pendingText] at h1 ⊢
            rw [h1]
            simp
          · right
            simp only [pendingText, List.reverse_nil, List.nil_append] at h1 ⊢
            rw [countB_cons_brace _ _ hbl, countB_cons_brace _ _ hbr,
              countB_cons_brace _ _ hbl, countB_cons_brace _ _ hbr]
            omega
        · right
          have hbf : braceFreeL buf.reverse = true := by
            simpa [braceFreeL] using hstb
          have hf0 : countB (f (String.mk buf.reverse)).data = 0 := hf _ hbf
          have hcb : countB buf.reverse = 0 := countB_eq_zero_of_braceFree _ hbf
          have hbound : countB (replaceExprs f none rest) ≤ countB rest := by
            rcases ih none trivial with h1 | h1
            · rw [h1]; simp [pendingText]
            · simpa [pendingText] using Nat.le_of_lt h1
          rw [replaceExprs_close f buf rest hbuf]
          simp only [pendingText]
          rw [countB_append, hf0, countB_cons_brace _ _ hbl, countB_append,
            countB_cons_brace _ _ hbr, hcb]
          omega
      · by_cases hc2 : c = lbrace
        · subst hc2
          rw [replaceExprs_reopen]
          rcases ih (some []) (by simp [stOk, braceFreeL]) with h1 | h1
          · left
            simp only [pendingText, List.reverse_nil, List.nil_append] at h1 ⊢
            rw [h1]
            simp
          · right
            simp only [pendingText, List.reverse_nil, List.nil_append] at h1 ⊢
            rw [countB_cons_brace _ _ hbl] at h1
            rw [countB_append, countB_cons_brace _ _ hbl, countB_cons_brace _ _ hbl,
              countB_append, countB_cons_brace _ _ hbl]
            omega
        · have hcb : isBrace c = false := by
            simp [isBrace, hc, hc2]
          have hok : stOk (some (c :: buf)) := by
            show braceFreeL (c :: buf) = true
            simp only [braceFreeL, List.all_cons, hcb] at hstb ⊢
            simp [hstb]
          have h2 := ih (some (c :: buf)) hok
          have hpe : pendingText (some (c :: buf)) rest = pendingText (some buf) (c :: rest) := by
            simp [pendingText, List.reverse_cons, List.append_assoc]
          rw [replaceExprs_extend f buf rest c hc hc2]
          rw [hpe] at h2
          exact h2

end Part001

namespace Part001

/-- Lists whose members all come from a brace-free list are brace-free. -/
theorem braceFreeL_of_sub {l m : List Char} (hsub : ∀ c ∈ m, c ∈ l)
    (h : braceFreeL l = true) : braceFreeL m = true := by
  rw [braceFreeL_iff] at h ⊢
  exact fun c hc => h c (hsub c hc)

/-- Both components produced by `condSplit` are built from characters of the key. -/
theorem condSplit_sub (key : String) (a b : String) (h : condSplit key = some (a, b)) :
    (∀ c ∈ a.data, c ∈ key.data) ∧ ∀ c ∈ b.data, c ∈ key.data := by
  unfold condSplit at h
  rcases hf : key.data.findIdx? (fun c => c = '?' || c = '|') with _ | i <;> rw [hf] at h <;>
    dsimp only at h
  · exact absurd h (by simp)
  · by_cases hcond : 0 < i ∧ key.data.get? i = some '?' ∧
        (key.data.drop (i + 1)).all (fun c => !jsLineTerminator c)
    · rw [if_pos hcond] at h
      simp only [Option.some.injEq, Prod.mk.injEq] at h
      obtain ⟨ha, hb⟩ := h
      constructor
      · intro c hc
        rw [← ha] at hc
        exact List.take_subset _ _ hc
      · intro c hc
        rw [← hb] at hc
        exact List.drop_subset _ _ hc
    · rw [if_neg hcond] at h
      exact absurd h (by simp)

/-- Brace-freeness distributes over a two-way if. -/
theorem braceFree_ite (c : Prop) [Decidable c] (a b : String)
    (ha : braceFreeL a.data = true) (hb : braceFreeL b.data = true) :
    braceFreeL (if c then a else b).data = true := by
  split <;> assumption

/-- The substitution callback only produces brace-free strings when the
metadata values, the url, the date renderings, and the key are brace-free. -/
theorem evalExpr_braceFree (dl : DateLib) (M : Metadata) (url : String)
    (hM : ∀ k v, M k = some v → braceFree v = true)
    (hurl : braceFree url = true)
    (hdl : ∀ v fo, braceFree (dl.render v fo) = true)
    (key : String) (hkey : braceFreeL key.data = true) :
    braceFreeL (evalExpr dl M url key).data = true := by
  unfold evalExpr
  cases hcs : condSplit key with
  | some p =>
    obtain ⟨fieldRaw, branches⟩ := p
    have hbr : braceFreeL branches.data = true :=
      braceFreeL_of_sub (condSplit_sub key fieldRaw branches hcs).2 hkey
    have htk : ∀ i, braceFreeL (unescapeColons (branches.data.take i)) = true := by
      intro i
      exact braceFreeL_unescapeColons _
        (braceFreeL_of_sub (fun c hc => List.take_subset _ _ hc) hbr)
    have hdr : ∀ i, braceFreeL (unescapeColons (branches.data.drop i)) = true := by
      intro i
      exact braceFreeL_unescapeColons _
        (braceFreeL_of_sub (fun c hc => List.drop_subset _ _ hc) hbr)
    dsimp only
    rcases hci : colonIdx branches.data with _ | i <;> simp only [hci]
    · exact braceFree_ite _ _ _ (braceFreeL_unescapeColons _ hbr) (by decide)
    · exact braceFree_ite _ _ _ (htk i) (hdr (i + 1))
  | none =>
    dsimp only
    split
    · exact hurl
    · split
      · decide
      · rename_i value heq
        split
        · split
          · exact hdl _ _
          · exact hM _ _ heq
        · exact hM _ _ heq

end Part001

namespace Part001

/-- Rebuilding a string from its characters is the identity. -/
theorem stringMk_data (s : String) : String.mk s.data = s := rfl

/-- A substitution pass either leaves the template unchanged or strictly
decreases its number of brace characters, provided every substituted value is
brace-free. -/
theorem substPass_ident_or_dec (dl : DateLib) (M : Metadata) (url : String)
    (hM : ∀ k v, M k = some v → braceFree v = true)
    (hurl : braceFree url = true)
    (hdl : ∀ v fo, braceFree (dl.render v fo) = true) (t : String) :
    substPass dl M url t = t ∨ countB (substPass dl M url t).data < countB t.data := by
  have h := replaceExprs_ident_or_dec (evalExpr dl M url)
    (fun s hs => countB_eq_zero_of_braceFree _ (evalExpr_braceFree dl M url hM hurl hdl s hs))
    t.data none trivial
  rcases h with h | h
  · left
    unfold substPass
    rw [show pendingText none t.data = t.data from rfl] at h
    rw [h, stringMk_data]
  · right
    unfold substPass
    simpa [pendingText] using h

/-- With brace-free substitution values, `formatTemplate` succeeds within fuel
one more than the brace count of the template. -/
theorem formatTemplate_total_aux (dl : DateLib) (M : Metadata) (url : String)
    (hM : ∀ k v, M k = some v → braceFree v = true)
    (hurl : braceFree url = true)
    (hdl : ∀ v fo, braceFree (dl.render v fo) = true) :
    ∀ n t, countB t.data ≤ n → ∃ r, formatTemplate dl M url (n + 1) t = some r := by
  intro n
  induction n with
  | zero =>
    intro t ht
    rcases substPass_ident_or_dec dl M url hM hurl hdl t with h | h
    · exact ⟨t, by simp [formatTemplate, h]⟩
    · omega
  | succ n ih =>
    intro t ht
    rcases substPass_ident_or_dec dl M url hM hurl hdl t with h | h
    · exact ⟨t, by simp [formatTemplate, h]⟩
    · have hne : substPass dl M url t ≠ t := by
        intro he
        rw [he] at h
        exact Nat.lt_irrefl _ h
      obtain ⟨r, hr⟩ := ih (substPass dl M url t) (by omega)
      refine ⟨r, ?_⟩
      rw [show formatTemplate dl M url (n + 1 + 1) t =
        formatTemplate dl M url (n + 1) (substPass dl M url t) from by
          simp [formatTemplate, hne]]
      exact hr

/-- The fuelled loop is monotone: once it reaches a fixed point, more fuel
gives the same answer. -/
theorem formatTemplate_mono (dl : DateLib) (M : Metadata) (url : String) :
    ∀ n m t r, n ≤ m → formatTemplate dl M url n t = some r →
      formatTemplate dl M url m t = some r := by
  intro n
  induction n with
  | zero =>
    intro m t r _ h
    exact absurd h (by simp [formatTemplate])
  | succ n ih =>
    intro m t r hm h
    obtain ⟨m2, rfl⟩ : ∃ m2, m = m2 + 1 := ⟨m - 1, by omega⟩
    by_cases hfix : substPass dl M url t = t
    · simp only [formatTemplate, hfix, if_pos] at h ⊢
      exact h
    · simp only [formatTemplate, hfix, if_neg, ite_false] at h ⊢
      exact ih m2 (substPass dl M url t) r (by omega) h

/-- The JS `formatTemplate` is a partial function: its result, when it
terminates, is unique. -/
theorem formatsTo_unique (dl : DateLib) (M : Metadata) (url : String) (t r1 r2 : String)
    (h1 : FormatsTo dl M url t r1) (h2 : FormatsTo dl M url t r2) : r1 = r2 := by
  obtain ⟨n1, h1⟩ := h1
  obtain ⟨n2, h2⟩ := h2
  have h1m := formatTemplate_mono dl M url n1 (n1 + n2) t r1 (by omega) h1
  have h2m := formatTemplate_mono dl M url n2 (n1 + n2) t r2 (by omega) h2
  rw [h1m] at h2m
  exact (Option.some.injEq .. ▸ h2m)

end Part001

namespace Part001

/-- Without opening braces the scanner copies its input verbatim. -/
theorem replaceExprs_id_of_noOpen (f : String → String) :
    ∀ cs : List Char, (∀ c ∈ cs, c ≠ lbrace) → replaceExprs f none cs = cs := by
  intro cs
  induction cs with
  | nil => intro _; rfl
  | cons c rest ih =>
    intro h
    rw [replaceExprs_none_other f c rest (h c (by simp)),
      ih (fun d hd => h d (by simp [hd]))]

/-- A brace-free template is a fixed point of the substitution pass. -/
theorem substPass_id_of_braceFree (dl : DateLib) (M : Metadata) (url : String)
    (t : String) (h : braceFreeL t.data = true) : substPass dl M url t = t := by
  unfold substPass
  rw [replaceExprs_id_of_noOpen, stringMk_data]
  intro c hc he
  rw [braceFreeL_iff] at h
  have := h c hc
  rw [he] at this
  exact absurd this (by decide)

/-- A brace-free string formats to itself. -/
theorem formatsTo_self_of_braceFree (dl : DateLib) (M : Metadata) (url : String)
    (t : String) (h : braceFreeL t.data = true) : FormatsTo dl M url t t :=
  ⟨1, by simp [formatTemplate, substPass_id_of_braceFree dl M url t h]⟩

/-- Scanning an open buffer through brace-free body text up to a closing brace
completes one match on the concatenation of buffer and body. -/
theorem replaceExprs_accum (f : String → String) :
    ∀ (body buf : List Char), (∀ c ∈ body, c ≠ lbrace ∧ c ≠ rbrace) →
      buf ≠ [] ∨ body ≠ [] → ∀ tail,
      replaceExprs f (some buf) (body ++ rbrace :: tail) =
        (f (String.mk (buf.reverse ++ body))).data ++ replaceExprs f none tail := by
  intro body
  induction body with
  | nil =>
    intro buf _ hne tail
    have hbuf : buf ≠ [] := by
      rcases hne with h | h
      · exact h
      · exact absurd rfl h
    rw [List.nil_append, replaceExprs_close f buf tail hbuf, List.append_nil]
  | cons c rest ih =>
    intro buf h hne tail
    have hc := h c (by simp)
    rw [List.cons_append, replaceExprs_extend f buf _ c hc.2 hc.1,
      ih (c :: buf) (fun d hd => h d (by simp [hd])) (Or.inl (by simp)) tail]
    have : (c :: buf).reverse ++ rest = buf.reverse ++ c :: rest := by
      simp [List.reverse_cons, List.append_assoc]
    rw [this]

/-- A template that is exactly one well-formed expression substitutes to the
callback output followed by the scan of the remaining text. -/
theorem replaceExprs_single_expr (f : String → String) (body tail : List Char)
    (hne : body ≠ []) (h : ∀ c ∈ body, c ≠ lbrace ∧ c ≠ rbrace) :
    replaceExprs f none (lbrace :: (body ++ rbrace :: tail)) =
      (f (String.mk body)).data ++ replaceExprs f none tail := by
  rw [replaceExprs_none_lbrace,
    replaceExprs_accum f body [] h (Or.inr hne) tail]
  simp

end Part001

/-- C1, counterexample: with the self-referential metadata `a ↦ "{b}"`,
`b ↦ "{a}"`, a single substitution pass maps the template `{a}` to `{b}` and
`{b}` back to `{a}`, so the while-loop of `formatTemplate` (part_001 lines
931-985) compares each result only with its immediate predecessor, never finds
a fixed point, and diverges: no fuel makes the modelled loop return.  This
refutes the claim that `formatTemplate` terminates for every template and
metadata mapping. -/
theorem c1_counterexample : ¬ Part001.Converges dl0 cexMeta "u" "\x7ba\x7d" := by
  have key : ∀ n, Part001.formatTemplate dl0 cexMeta "u" n "\x7ba\x7d" = none ∧
      Part001.formatTemplate dl0 cexMeta "u" n "\x7bb\x7d" = none := by
    intro n
    induction n with
    | zero => exact ⟨rfl, rfl⟩
    | succ n ih =>
      have h1 : Part001.substPass dl0 cexMeta "u" "\x7ba\x7d" = "\x7bb\x7d" := by decide
      have h2 : Part001.substPass dl0 cexMeta "u" "\x7bb\x7d" = "\x7ba\x7d" := by decide
      have hne1 : ("\x7bb\x7d" : String) ≠ "\x7ba\x7d" := by decide
      have hne2 : ("\x7ba\x7d" : String) ≠ "\x7bb\x7d" := by decide
      constructor
      · simp only [Part001.formatTemplate, h1]
        rw [if_neg hne1]
        exact ih.2
      · simp only [Part001.formatTemplate, h2]
        rw [if_neg hne2]
        exact ih.1
  rintro ⟨r, fuel, h⟩
  rw [(key fuel).1] at h
  exact Option.noConfusion h

/-- C1 (amended): `formatTemplate` is total by construction (the embedding is a
total function: malformed expressions never throw, an unknown variable renders
as the empty substitution), and the iterative substitution reaches a fixed
point whenever the substituted values — metadata values, the url, and date
renderings — are brace-free, i.e. the metadata is not self-referential; first
conjunct: termination on every template under that hypothesis, second
conjunct: a malformed/unknown expression such as `{missing}` is rendered as
the empty substitution. -/
theorem c1_formatTemplate_terminates :
    (∀ (dl : DateLib) (M : Metadata) (url : String),
      (∀ k v, M k = some v → Part001.braceFree v = true) →
      Part001.braceFree url = true →
      (∀ v fo, Part001.braceFree (dl.render v fo) = true) →
      ∀ t, Part001.Converges dl M url t)
    ∧ ∀ (dl : DateLib) (M : Metadata) (url : String), M "missing" = none →
        Part001.FormatsTo dl M url "\x7bmissing\x7d" "" := by
  constructor
  · intro dl M url hM hurl hdl t
    obtain ⟨r, hr⟩ := Part001.formatTemplate_total_aux dl M url hM hurl hdl
      (Part001.countB t.data) t le_rfl
    exact ⟨r, _, hr⟩
  · intro dl M url hmiss
    have hkey : Part001.evalExpr dl M url "missing" = "" := by
      have hcs : Part001.condSplit "missing" = none := by decide
      have hparts : (Part001.splitPipe ("missing" : String).data).map
          (fun l => jsTrim (String.mk l)) = ["missing"] := by decide
      simp [Part001.evalExpr, hcs, hparts, hmiss]
    have hpass : Part001.substPass dl M url "\x7bmissing\x7d" = "" := by
      unfold Part001.substPass
      have hshape : ("\x7bmissing\x7d" : String).data =
          lbrace :: (("missing" : String).data ++ rbrace :: []) := by decide
      rw [hshape, Part001.replaceExprs_single_expr _ _ _ (by decide) (by decide), hkey]
      rfl
    refine ⟨2, ?_⟩
    by_cases hfix : Part001.substPass dl M url "\x7bmissing\x7d" = "\x7bmissing\x7d"
    · rw [hpass] at hfix
      exact absurd hfix (by decide)
    · simp only [Part001.formatTemplate, hfix, ite_false, hpass]
      rw [if_neg (show ¬("" : String) = "\x7bmissing\x7d" from by decide),
        if_pos (Part001.substPass_id_of_braceFree dl M url "" (by decide))]

/-- C1 witness: the amended theorem applied at a concrete date library, empty
metadata, url and template. -/
theorem c1_witness :
    Part001.Converges dl0 M0 "https://e.co" "\x7btitle\x7d by \x7bchannel\x7d" ∧
      Part001.FormatsTo dl0 M0 "https://e.co" "\x7bmissing\x7d" "" := by
  constructor
  · exact c1_formatTemplate_terminates.1 dl0 M0 "https://e.co"
      (fun k v h => by simp [M0] at h) (by decide)
      (fun v fo => show Part001.braceFree "" = true from by decide)
      "\x7btitle\x7d by \x7bchannel\x7d"
  · exact c1_formatTemplate_terminates.2 dl0 M0 "https://e.co" rfl

namespace Part001

/-- A template whose single pass produces a brace-free string formats to it. -/
theorem formatsTo_of_pass_braceFree (dl : DateLib) (M : Metadata) (url : String)
    (t r : String) (hpass : substPass dl M url t = r) (hbf : braceFreeL r.data = true) :
    FormatsTo dl M url t r := by
  refine ⟨2, ?_⟩
  simp only [formatTemplate, hpass]
  by_cases heq : r = t
  · rw [if_pos heq, heq]
  · rw [if_neg heq, if_pos (substPass_id_of_braceFree dl M url r hbf)]

/-- On a key assembled as `field?branches` with a clean field,
`condSplit` recovers exactly the two components. -/
theorem condSplit_concat (field branches : String)
    (hne : field ≠ "")
    (hf : ∀ c ∈ field.data, c ≠ '?' ∧ c ≠ '|')
    (hbl : ∀ c ∈ branches.data, jsLineTerminator c = false) :
    condSplit (String.mk (field.data ++ '?' :: branches.data)) = some (field, branches) := by
  have hlen : 0 < field.data.length := by
    cases hd : field.data with
    | nil => exact absurd (show field = "" from by cases field with | mk d => simp_all) hne
    | cons a l => simp
  have hnone : List.findIdx? (fun c => c = '?' || c = '|') field.data = none := by
    rw [List.findIdx?_eq_none_iff]
    intro c hc
    have := hf c hc
    simp [this.1, this.2]
  have hcons : List.findIdx? (fun c => c = '?' || c = '|') ('?' :: branches.data) = some 0 := by
    rw [List.findIdx?_cons]
    simp
  have hidx : List.findIdx? (fun c => c = '?' || c = '|')
      (field.data ++ '?' :: branches.data) = some field.data.length := by
    rw [List.findIdx?_append, hnone, hcons]
    simp
  have htake : List.take field.data.length (field.data ++ '?' :: branches.data) =
      field.data := List.take_left _ _
  have hdrop : List.drop (field.data.length + 1) (field.data ++ '?' :: branches.data) =
      branches.data := by
    rw [show field.data ++ '?' :: branches.data = (field.data ++ ['?']) ++ branches.data from
      by simp, show field.data.length + 1 = (field.data ++ ['?']).length from by simp]
    exact List.drop_left _ _
  unfold condSplit
  rw [show (String.mk (field.data ++ '?' :: branches.data)).data =
    field.data ++ '?' :: branches.data from rfl, hidx]
  dsimp only
  rw [if_pos]
  · rw [htake, hdrop, stringMk_data, stringMk_data]
  · refine ⟨hlen, ?_, ?_⟩
    · rw [List.get?_append_right (Nat.le_refl _)]
      simp
    · rw [hdrop, List.all_eq_true]
      intro c hc
      simp [hbl c hc]

/-- Evaluating an assembled conditional key selects a branch exactly as
`chosenBranch` describes. -/
theorem evalExpr_conditional (dl : DateLib) (M : Metadata) (url : String)
    (field branches : String)
    (hne : field ≠ "")
    (hf : ∀ c ∈ field.data, c ≠ '?' ∧ c ≠ '|')
    (hbl : ∀ c ∈ branches.data, jsLineTerminator c = false) :
    evalExpr dl M url (String.mk (field.data ++ '?' :: branches.data)) =
      String.mk (chosenBranch
        (match (if jsTrim field = "url" then some url else M (jsTrim field)) with
          | none => false
          | some v => v != "") branches.data) := by
  unfold evalExpr
  rw [condSplit_concat field branches hne hf hbl]
  dsimp only
  unfold chosenBranch
  rcases hci : colonIdx branches.data with _ | i <;> simp only [hci] <;>
    rcases hp : (match (if jsTrim field = "url" then some url else M (jsTrim field)) with
      | none => false
      | some v => v != "") with _ | _ <;> simp [hp]

end Part001

namespace Part001

/-- The selected conditional branch is brace-free when the branch text is. -/
theorem chosenBranch_braceFree (p : Bool) (branches : List Char)
    (h : braceFreeL branches = true) : braceFreeL (chosenBranch p branches) = true := by
  unfold chosenBranch
  rcases hci : colonIdx branches with _ | i <;> simp only [hci] <;> cases p
  · simp [braceFreeL]
  · simpa using braceFreeL_unescapeColons _ h
  · simpa using braceFreeL_unescapeColons _
      (braceFreeL_of_sub (fun c hc => List.drop_subset _ _ hc) h)
  · simpa using braceFreeL_unescapeColons _
      (braceFreeL_of_sub (fun c hc => List.take_subset _ _ hc) h)

end Part001

/-- C6 (amended): for a conditional template `{field?branches}` (field
non-empty, free of `?`, `|` and braces; branch text free of braces **and of
line terminators** — the conditional test `/^([^?|]+)\?(.*)$/` cannot match
past a newline, so a branch text containing one makes the whole key a plain
variable lookup instead), `formatTemplate` chooses the present side exactly
when the field resolves to a defined, non-empty value — the `url` field
resolving to the url argument — and splits the branch text at the first
unescaped `:` **at position ≥ 1** (a leading colon is never a separator,
which is the other correction to the claim), unescaping `\:` in the chosen
side; in particular `{title?Known:Unknown}` yields `Known` with
`title = "X"` and `Unknown` with empty metadata, while `{a?b` `\n` `c}` is a
variable lookup rendering as the empty string. -/
theorem c6_conditional_choice :
    (∀ (dl : DateLib) (M : Metadata) (url field branches : String),
      field ≠ "" →
      (∀ c ∈ field.data, c ≠ '?' ∧ c ≠ '|' ∧ c ≠ lbrace ∧ c ≠ rbrace) →
      (∀ c ∈ branches.data, (c ≠ lbrace ∧ c ≠ rbrace) ∧ jsLineTerminator c = false) →
      Part001.FormatsTo dl M url ("\x7b" ++ field ++ "?" ++ branches ++ "\x7d")
        (String.mk (Part001.chosenBranch
          (match (if jsTrim field = "url" then some url else M (jsTrim field)) with
            | none => false
            | some v => v != "") branches.data)))
    ∧ Part001.FormatsTo dl0 M1 "https://e.co" "\x7btitle?Known:Unknown\x7d" "Known"
    ∧ Part001.FormatsTo dl0 M0 "https://e.co" "\x7btitle?Known:Unknown\x7d" "Unknown"
    ∧ Part001.FormatsTo dl0 M1 "u" "\x7ba?b\nc\x7d" "" := by
  refine ⟨?_, ⟨2, by decide⟩, ⟨2, by decide⟩, ⟨2, by decide⟩⟩
  intro dl M url field branches hne hf hb
  have h1 : ('\x7b' : Char) = lbrace := by decide
  have h2 : ('\x7d' : Char) = rbrace := by decide
  have hshape : ("\x7b" ++ field ++ "?" ++ branches ++ "\x7d").data =
      lbrace :: ((field.data ++ '?' :: branches.data) ++ rbrace :: []) := by
    simp [String.data_append, h1, h2]
    exact ⟨h1, h2⟩
  have hchars : ∀ c ∈ field.data ++ '?' :: branches.data, c ≠ lbrace ∧ c ≠ rbrace := by
    intro c hc
    rcases List.mem_append.mp hc with hc | hc
    · exact ⟨(hf c hc).2.2.1, (hf c hc).2.2.2⟩
    · rcases List.mem_cons.mp hc with hc | hc
      · subst hc
        exact ⟨by decide, by decide⟩
      · exact (hb c hc).1
  have hbodyne : field.data ++ '?' :: branches.data ≠ [] := by simp
  have hpass : Part001.substPass dl M url ("\x7b" ++ field ++ "?" ++ branches ++ "\x7d") =
      String.mk (Part001.chosenBranch
        (match (if jsTrim field = "url" then some url else M (jsTrim field)) with
          | none => false
          | some v => v != "") branches.data) := by
    unfold Part001.substPass
    rw [hshape, Part001.replaceExprs_single_expr _ _ _ hbodyne hchars,
      Part001.evalExpr_conditional dl M url field branches hne
        (fun c hc => ⟨(hf c hc).1, (hf c hc).2.1⟩) (fun c hc => (hb c hc).2)]
    show String.mk (_ ++ Part001.replaceExprs _ none []) = _
    rw [show Part001.replaceExprs (Part001.evalExpr dl M url) none [] = [] from rfl,
      List.append_nil]
  refine Part001.formatsTo_of_pass_braceFree dl M url _ _ hpass ?_
  refine Part001.chosenBranch_braceFree _ _ ?_
  rw [Part001.braceFreeL_iff]
  intro c hc
  have hcb := (hb c hc).1
  simp [Part001.isBrace, hcb.1, hcb.2]

/-- C6 witness: the amended theorem applied to the conditional
`{title?Known:Unknown}` with metadata `title = "X"`: the present branch
`Known` is chosen. -/
theorem c6_witness :
    Part001.FormatsTo dl0 M1 "https://e.co" ("\x7b" ++ "title" ++ "?" ++ "Known:Unknown" ++ "\x7d")
      (String.mk (Part001.chosenBranch
        (match (if jsTrim "title" = "url" then some "https://e.co" else M1 (jsTrim "title")) with
          | none => false
          | some v => v != "") ("Known:Unknown" : String).data)) :=
  c6_conditional_choice.1 dl0 M1 "https://e.co" "title" "Known:Unknown"
    (by decide) (by decide) (by decide)

/-- C6 counterexample: on branch text that begins with a colon the code never
splits there — the scan of part_001 lines 948-961 starts at index 1 — so with
`title` present, `{title?:absent}` renders as the whole unsplit branch text
`:absent`, not as the empty present-side that splitting at the first unescaped
colon would give.  The claim's universal "splitting branches at the first
unescaped colon" is therefore false at this input. -/
theorem c6_counterexample :
    Part001.FormatsTo dl0 M1 "u" "\x7btitle?:absent\x7d" ":absent" ∧
      ¬ Part001.FormatsTo dl0 M1 "u" "\x7btitle?:absent\x7d" "" := by
  have h : Part001.formatTemplate dl0 M1 "u" 2 "\x7btitle?:absent\x7d" = some ":absent" := by
    decide
  refine ⟨⟨2, h⟩, fun hf => ?_⟩
  have := Part001.formatsTo_unique dl0 M1 "u" "\x7btitle?:absent\x7d" ":absent" "" ⟨2, h⟩ hf
  exact absurd this (by decide)

/-- C2 counterexample: in the feature-complete variant (part_001 lines
994-1012) the no-bracket branch returns the trimmed text *unchanged*, so
`wrapInMarkdownLink("Plain", "https://e.co")` is `"Plain"`, not the
`"[Plain](https://e.co)"` the claim asserts. -/
theorem c2_counterexample :
    Part001.wrapInMarkdownLink "Plain" "https://e.co" = "Plain" ∧
      ("Plain" : String) ≠ "[Plain](https://e.co)" := ⟨by decide, by decide⟩

/-- C2 (amended): when the bracket matcher finds no span, the two coexisting
variants diverge: the clients.ts variant (lines 351-363) synthesizes
`[trimmedText](url)` — and in particular maps `"Plain"` to
`"[Plain](https://e.co)"` as the claim states — while the feature-complete
part_001 variant (lines 994-1012) returns the trimmed text unchanged, with
only the embed marker re-prepended, and synthesizes no link. -/
theorem c2_no_bracket_branches :
    (∀ text url : String, ClientsTs.findBracket text.data = none →
      ClientsTs.wrapInMarkdownLink text url = "[" ++ jsTrim text ++ "](" ++ url ++ ")")
    ∧ (∀ text url : String,
        Part001.findBracketEsc none (Part001.textToProcess text).data = none →
        Part001.wrapInMarkdownLink text url =
          if Part001.isEmbedText text then "!" ++ jsTrim (Part001.textToProcess text)
          else jsTrim (Part001.textToProcess text))
    ∧ ClientsTs.wrapInMarkdownLink "Plain" "https://e.co" = "[Plain](https://e.co)" := by
  refine ⟨?_, ?_, by decide⟩
  · intro text url h
    unfold ClientsTs.wrapInMarkdownLink
    rw [h]
  · intro text url h
    unfold Part001.wrapInMarkdownLink
    dsimp only
    rw [h]

/-- C2 witness: the amended theorem applied at `"Plain"`, where neither
variant finds a bracketed span. -/
theorem c2_witness :
    ClientsTs.wrapInMarkdownLink "Plain" "https://e.co" =
        "[" ++ jsTrim "Plain" ++ "](" ++ "https://e.co" ++ ")" ∧
      Part001.wrapInMarkdownLink "Plain" "https://e.co" =
        (if Part001.isEmbedText "Plain" then "!" ++ jsTrim (Part001.textToProcess "Plain")
          else jsTrim (Part001.textToProcess "Plain")) :=
  ⟨c2_no_bracket_branches.1 "Plain" "https://e.co" (by decide),
    c2_no_bracket_branches.2.1 "Plain" "https://e.co" (by decide)⟩

/-- C10: in both variants the bracketed branch additionally requires the
captured content to be non-empty (`linkMatch && linkMatch[1]`), so a text
whose first bracket pair is empty is handled by the no-bracket branch: the
clients.ts variant wraps the whole trimmed text, the part_001 variant returns
the trimmed text; in particular `"[] suffix"` is never given the empty label. -/
theorem c10_empty_brackets :
    (∀ (text url : String) (pre post : List Char),
      ClientsTs.findBracket text.data = some (pre, [], post) →
      ClientsTs.wrapInMarkdownLink text url = "[" ++ jsTrim text ++ "](" ++ url ++ ")")
    ∧ (∀ (text url : String) (pre post : List Char),
        Part001.findBracketEsc none (Part001.textToProcess text).data = some (pre, [], post) →
        Part001.wrapInMarkdownLink text url =
          if Part001.isEmbedText text then "!" ++ jsTrim (Part001.textToProcess text)
          else jsTrim (Part001.textToProcess text))
    ∧ ClientsTs.wrapInMarkdownLink "[] suffix" "https://e.co" =
        "[[] suffix](https://e.co)"
    ∧ Part001.wrapInMarkdownLink "[] suffix" "https://e.co" = "[] suffix" := by
  refine ⟨?_, ?_, by decide, by decide⟩
  · intro text url pre post h
    unfold ClientsTs.wrapInMarkdownLink
    rw [h]
    simp
  · intro text url pre post h
    unfold Part001.wrapInMarkdownLink
    dsimp only
    rw [h]
    simp

/-- C10 witness: the theorem applied at `"[] suffix"`, whose first bracket
pair is empty in both variants. -/
theorem c10_witness :
    ClientsTs.wrapInMarkdownLink "[] suffix" "u" =
        "[" ++ jsTrim "[] suffix" ++ "](" ++ "u" ++ ")" ∧
      Part001.wrapInMarkdownLink "[] suffix" "u" =
        (if Part001.isEmbedText "[] suffix" then
          "!" ++ jsTrim (Part001.textToProcess "[] suffix")
        else jsTrim (Part001.textToProcess "[] suffix")) :=
  ⟨c10_empty_brackets.1 "[] suffix" "u" [] (" suffix").data (by decide),
    c10_empty_brackets.2.1 "[] suffix" "u" [] (" suffix").data (by decide)⟩

namespace ClientsTs

/-- A decimal digit is not the letter `s`. -/
theorem digit_ne_s (c : Char) (h : c.isDigit = true) : c ≠ 's' := by
  intro he
  rw [he] at h
  exact absurd h (by decide)

/-- Removing the first `s` from an all-digit string is the identity. -/
theorem removeFirstS_digits (l : List Char) (h : ∀ c ∈ l, c.isDigit = true) :
    removeFirstS l = l := by
  induction l with
  | nil => rfl
  | cons c rest ih =>
    rw [removeFirstS, if_neg (digit_ne_s c (h c (by simp))),
      ih (fun d hd => h d (by simp [hd]))]

/-- Removing the first `s` from an all-digit string with a trailing `s` strips
exactly that suffix. -/
theorem removeFirstS_trailing (l : List Char) (h : ∀ c ∈ l, c.isDigit = true) :
    removeFirstS (l ++ ['s']) = l := by
  induction l with
  | nil => rfl
  | cons c rest ih =>
    rw [List.cons_append, removeFirstS, if_neg (digit_ne_s c (h c (by simp))),
      ih (fun d hd => h d (by simp [hd]))]

/-- An all-digit string converts to its digit value. -/
theorem jsNumberNat_digits (l : List Char) (hne : l ≠ [])
    (h : ∀ c ∈ l, c.isDigit = true) :
    jsNumberNat (String.mk l) = some (digitsToNat l) := by
  unfold jsNumberNat
  rw [if_neg (by simpa using hne), if_pos (by simpa using List.all_eq_true.mpr h)]

end ClientsTs

/-- C4 counterexample: for `t=90` the derived timestamp is `@1:30` — which the
claim itself gives as the expected example — with the minutes *not*
zero-padded to two digits, contradicting the claim's general "renders
`@M:SS` ... with minutes and seconds zero-padded to two digits", which would
require `@01:30`. -/
theorem c4_counterexample :
    ClientsTs.timestampFromParams (some "90") none = "@1:30" ∧
      ("@1:30" : String) ≠ "@" ++ ClientsTs.pad2 1 ++ ":" ++ ClientsTs.pad2 30 :=
  ⟨by decide, by decide⟩

/-- C4 (amended): the derived timestamp reads the numeric seconds from the `t`
or `time_continue` query parameter, stripping a trailing `s` unit suffix;
values of at least one hour render as `@H:MM:SS` with minutes and seconds
zero-padded to two digits, smaller non-zero values render as `@M:SS` with the
minutes **unpadded** and only the seconds zero-padded; an absent or zero
parameter yields the empty string; in particular 90 seconds yields `@1:30`. -/
theorem c4_timestamp_derivation :
    (∀ d : String, d.data ≠ [] → (∀ c ∈ d.data, c.isDigit = true) →
      ClientsTs.getYouTubeTimestamp (some d) none = some (ClientsTs.digitsToNat d.data) ∧
      ClientsTs.getYouTubeTimestamp (some (d ++ "s")) none =
        some (ClientsTs.digitsToNat d.data) ∧
      ClientsTs.getYouTubeTimestamp none (some d) = some (ClientsTs.digitsToNat d.data))
    ∧ (∀ v : Nat, ClientsTs.youtubeTimestampString (some v) =
        if v = 0 then ""
        else if 3600 ≤ v then
          "@" ++ toString (v / 3600) ++ ":" ++ ClientsTs.pad2 (v % 3600 / 60) ++ ":" ++
            ClientsTs.pad2 (v % 60)
        else "@" ++ toString (v % 3600 / 60) ++ ":" ++ ClientsTs.pad2 (v % 60))
    ∧ ClientsTs.timestampFromParams none none = ""
    ∧ ClientsTs.timestampFromParams (some "0") none = ""
    ∧ ClientsTs.timestampFromParams (some "90") none = "@1:30"
    ∧ ClientsTs.timestampFromParams (some "90s") none = "@1:30" := by
  refine ⟨?_, ?_, by decide, by decide, by decide, by decide⟩
  · intro d hne hdig
    have hdempty : ¬d = "" := by
      intro he
      rw [he] at hne
      exact hne rfl
    refine ⟨?_, ?_, ?_⟩
    · unfold ClientsTs.getYouTubeTimestamp
      rw [show ClientsTs.jsOrParam (some d) none = d from by
        simp [ClientsTs.jsOrParam, hdempty]]
      rw [ClientsTs.removeFirstS_digits d.data hdig]
      exact ClientsTs.jsNumberNat_digits d.data hne hdig
    · unfold ClientsTs.getYouTubeTimestamp
      have hsne : ¬(d ++ "s") = "" := by
        intro he
        have : (d ++ "s").data = [] := by rw [he]
        rw [String.data_append] at this
        simp at this
      rw [show ClientsTs.jsOrParam (some (d ++ "s")) none = d ++ "s" from by
        simp [ClientsTs.jsOrParam, hsne]]
      rw [show (d ++ "s").data = d.data ++ ['s'] from by rw [String.data_append]]
      rw [ClientsTs.removeFirstS_trailing d.data hdig]
      exact ClientsTs.jsNumberNat_digits d.data hne hdig
    · unfold ClientsTs.getYouTubeTimestamp
      rw [show ClientsTs.jsOrParam none (some d) = d from by
        simp [ClientsTs.jsOrParam, hdempty]]
      rw [ClientsTs.removeFirstS_digits d.data hdig]
      exact ClientsTs.jsNumberNat_digits d.data hne hdig
  · intro v
    rcases v with _ | k
    · rfl
    · show (let hours := (k + 1) / 3600
        let mins := ((k + 1) % 3600) / 60
        let secs := (k + 1) % 60
        if hours > 0 then
          "@" ++ toString hours ++ ":" ++ ClientsTs.pad2 mins ++ ":" ++ ClientsTs.pad2 secs
        else "@" ++ toString mins ++ ":" ++ ClientsTs.pad2 secs) = _
      dsimp only
      by_cases h : 3600 ≤ k + 1
      · simp only [if_pos (Nat.div_pos h (by norm_num)),
          if_neg (show ¬k + 1 = 0 from by omega), if_pos h]
      · have h0 : (k + 1) / 3600 = 0 := Nat.div_eq_of_lt (by omega)
        simp only [h0, if_neg (show ¬(0 : Nat) > 0 from by omega),
          if_neg (show ¬k + 1 = 0 from by omega), if_neg h]

/-- C4 witness: the amended theorem's parameter-extraction part applied to the
digit string `5405` (one hour, thirty minutes, five seconds). -/
theorem c4_witness :
    ClientsTs.getYouTubeTimestamp (some "5405") none =
        some (ClientsTs.digitsToNat ("5405" : String).data) ∧
      ClientsTs.getYouTubeTimestamp (some ("5405" ++ "s")) none =
        some (ClientsTs.digitsToNat ("5405" : String).data) ∧
      ClientsTs.getYouTubeTimestamp none (some "5405") =
        some (ClientsTs.digitsToNat ("5405" : String).data) :=
  c4_timestamp_derivation.1 "5405" (by decide) (by decide)

/-- C5: the last entry of the ordered client registry is the catch-all
`DefaultClient`, whose matcher returns `true` on every input, so the
first-match dispatch `CLIENTS.find(client => client.matches(url))` always
yields a client; hence the `else { throw new Error("No client found...") }`
no-handler branch of `handleFormat` (main.ts lines 125-136) is unreachable. -/
theorem c5_dispatch_always_finds :
    (∀ url : String, ClientsTs.DefaultClient.urlMatches url = true)
    ∧ ∀ url : String, ∃ c, ClientsTs.dispatch url = some c := by
  refine ⟨fun url => rfl, fun url => ?_⟩
  unfold ClientsTs.dispatch ClientsTs.CLIENTS
  cases h1 : ClientsTs.YouTubeClient.urlMatches url <;>
    cases h2 : ClientsTs.YouTubeMusicClient.urlMatches url <;>
      cases h3 : ClientsTs.ImageClient.urlMatches url <;>
        cases h4 : ClientsTs.GitHubClient.urlMatches url <;>
          simp [List.find?_cons, h1, h2, h3, h4, ClientsTs.DefaultClient]

/-- C7: the classifier never intercepts with no selection when the cursor sits
immediately after an unclosed markdown link opening `[...](`  with `)` as the
next character (main.ts lines 166-169), and with an active selection a URL
paste is always eligible — `shouldReplace` returns true before any
code-block, frontmatter, inline-code or comment check runs (main.ts lines
158-160). -/
theorem c7_classifier_guards :
    (∀ (st : MainTs.EditorState) (text : String),
      st.selected = false →
      MainTs.linkParenBefore ((MainTs.getLine st).data.take st.cursorCh) = true →
      MainTs.charAfterCursor (MainTs.getLine st) st.cursorCh = some ')' →
      MainTs.shouldReplace st text = false)
    ∧ ∀ (st : MainTs.EditorState) (text : String),
        st.selected = true → isLink text = true → MainTs.shouldReplace st text = true := by
  constructor
  · intro st text hsel hlink hafter
    unfold MainTs.shouldReplace
    by_cases hl : isLink text
    · dsimp only [MainTs.substringTo]
      simp only [hl, Bool.not_true, Bool.false_eq_true, if_false, hsel]
      have hcond : (MainTs.linkParenBefore (List.take st.cursorCh (MainTs.getLine st).data) &&
          (MainTs.charAfterCursor (MainTs.getLine st) st.cursorCh == some ')')) = true := by
        rw [hlink, hafter]
        rfl
      rw [if_pos hcond]
    · simp [hl]
  · intro st text hsel hl
    unfold MainTs.shouldReplace
    simp [hl, hsel]

/-- C7 witness: the first part applied at a cursor between `(` and `)` of
`[abc](|)` with no selection, the second at a selection inside a fenced code
block. -/
theorem c7_witness :
    MainTs.shouldReplace ⟨["[abc]()"], 0, 6, false⟩ "https://e.co" = false ∧
      MainTs.shouldReplace ⟨["```", "code"], 1, 0, true⟩ "https://e.co" = true :=
  ⟨c7_classifier_guards.1 ⟨["[abc]()"], 0, 6, false⟩ "https://e.co" rfl (by decide) (by decide),
    c7_classifier_guards.2 ⟨["```", "code"], 1, 0, true⟩ "https://e.co" rfl (by decide)⟩

/-- C3 counterexample: in the `handlePaste` of main.ts lines 95-109 a
blacklisted paste makes the handler return *before* `preventDefault()`: no
placeholder is ever created, so the claim's "the placeholder is immediately
replaced with the raw original pasted text" does not describe this code — the
raw text reaches the document through the editor's default paste instead. -/
theorem c3_counterexample :
    MainTs.isBlacklisted (some "evil.com") "evil.com" = true ∧
      MainTs.handlePaste ⟨true, false, .revert, 10, "evil.com"⟩ ⟨["x "], 0, 2, false⟩
        (some "evil.com") "https://evil.com/x" = .defaultPaste ∧
      MainTs.placeholderInserted
        (MainTs.handlePaste ⟨true, false, .revert, 10, "evil.com"⟩ ⟨["x "], 0, 2, false⟩
          (some "evil.com") "https://evil.com/x") = false :=
  ⟨by decide, by decide, by decide⟩

/-- C3 (amended): for every paste whose URL is unparsable (`none` hostname) or
whose hostname contains a configured blacklisted domain substring, the
operation stops before any metadata fetch starts — the handler returns before
`preventDefault()`, no placeholder is created, and the editor's default paste
leaves exactly the raw original text in the document. -/
theorem c3_blacklist_short_circuit :
    ∀ (sett : MainTs.Settings) (st : MainTs.EditorState) (host? : Option String)
      (clip : String),
      MainTs.isBlacklisted host? sett.blacklistedDomains = true →
      MainTs.handlePaste sett st host? clip = .defaultPaste ∧
        MainTs.placeholderInserted (MainTs.handlePaste sett st host? clip) = false ∧
        MainTs.startsFetch (MainTs.handlePaste sett st host? clip) = false := by
  intro sett st host? clip hbl
  unfold MainTs.handlePaste
  split_ifs <;>
    simp_all [MainTs.placeholderInserted, MainTs.startsFetch]

/-- C3 witness: the amended theorem applied to an unparsable URL (the parse
failure branch of `isBlacklisted` returns true). -/
theorem c3_witness :
    MainTs.handlePaste ⟨true, false, .revert, 10, ""⟩ ⟨["x "], 0, 2, false⟩ none "::" =
        .defaultPaste ∧
      MainTs.placeholderInserted
        (MainTs.handlePaste ⟨true, false, .revert, 10, ""⟩ ⟨["x "], 0, 2, false⟩ none "::") =
          false ∧
      MainTs.startsFetch
        (MainTs.handlePaste ⟨true, false, .revert, 10, ""⟩ ⟨["x "], 0, 2, false⟩ none "::") =
          false :=
  c3_blacklist_short_circuit ⟨true, false, .revert, 10, ""⟩ ⟨["x "], 0, 2, false⟩ none "::" rfl

/-- C8: on every completion path of a paste operation — successful format,
fetch error or timeout (the failure branch), and in both cases whether or not
the placeholder text is still present in the document (replacement silently
no-ops when it is not, leaving the document unchanged and triggering the
orphan sweep, which never touches the active set) — the placeholder is
removed from the in-memory active set: `replacePlaceholder` deletes it after
its try/catch on both the found and the not-found path. -/
theorem c8_active_set_cleared :
    (∀ (placeholder clip : String) (mode : FailureMode) (result : Except Unit String)
      (docAtCompletion : String) (active0 : Finset String),
      placeholder ∉
        (MainTs.handleFormatSettle placeholder clip mode result docAtCompletion
          active0).active)
    ∧ ∀ (placeholder newText : String) (s : MainTs.OpState),
        (MainTs.replacePlaceholder placeholder newText s).1 = false →
        (MainTs.replacePlaceholder placeholder newText s).2.doc = s.doc := by
  constructor
  · intro ph clip mode result doc a0
    unfold MainTs.handleFormatSettle
    rcases result with e | txt <;> dsimp only [MainTs.replacePlaceholder] <;> split <;>
      simp [Finset.not_mem_erase]
  · intro ph txt s hfound
    unfold MainTs.replacePlaceholder at hfound ⊢
    dsimp only at hfound ⊢
    rw [if_neg (by simp [hfound])]

/-- C8 witness: a fetch-error completion on a document from which the
placeholder has disappeared: the active set no longer holds it and the
document is untouched by the failed replacement. -/
theorem c8_witness :
    "ph" ∉ (MainTs.handleFormatSettle "ph" "https://e.co" .revert (.error ())
        "edited away" ∅).active ∧
      (MainTs.replacePlaceholder "ph" "https://e.co" ⟨"edited away", ∅⟩).2.doc =
        "edited away" :=
  ⟨c8_active_set_cleared.1 "ph" "https://e.co" .revert (.error ()) "edited away" ∅,
    c8_active_set_cleared.2 "ph" "https://e.co" ⟨"edited away", ∅⟩ (by decide)⟩

namespace MainTs

/-- Consuming a literal decomposes the input. -/
theorem matchLit_some : ∀ (L cs r : List Char), matchLit L cs = some r → cs = L ++ r := by
  intro L
  induction L with
  | nil =>
    intro cs r h
    simp [matchLit] at h
    simp [h]
  | cons l ls ih =>
    intro cs r h
    rcases cs with _ | ⟨c, cs2⟩
    · exact absurd h (by simp [matchLit])
    · rw [matchLit] at h
      by_cases hc : c = l
      · rw [if_pos hc] at h
        rw [List.cons_append, ← ih cs2 r h, hc]
      · rw [if_neg hc] at h
        exact absurd h (by simp)

/-- A literal consumes itself from the front of any input extending it. -/
theorem matchLit_self : ∀ (L r : List Char), matchLit L (L ++ r) = some r := by
  intro L
  induction L with
  | nil => intro r; rfl
  | cons l ls ih =>
    intro r
    rw [List.cons_append, matchLit, if_pos rfl, ih]

/-- A successful quote capture decomposes the input and is quote-free. -/
theorem takeToQuote_some : ∀ (cs a r : List Char), takeToQuote cs = some (a, r) →
    cs = a ++ '"' :: r ∧ '"' ∉ a := by
  intro cs
  induction cs with
  | nil =>
    intro a r h
    exact absurd h (by simp [takeToQuote])
  | cons c cs2 ih =>
    intro a r h
    rw [takeToQuote] at h
    by_cases hc : c = '"'
    · rw [if_pos hc] at h
      simp only [Option.some.injEq, Prod.mk.injEq] at h
      obtain ⟨ha, hr⟩ := h
      subst ha
      subst hr
      simp [hc]
    · rw [if_neg hc] at h
      rcases h2 : takeToQuote cs2 with _ | ⟨a2, r2⟩ <;> rw [h2] at h
      · exact absurd h (by simp)
      · simp only [Option.some.injEq, Prod.mk.injEq] at h
        obtain ⟨ha, hr⟩ := h
        subst hr
        obtain ⟨hd, hm⟩ := ih a2 r2 h2
        constructor
        · rw [← ha, List.cons_append, hd]
        · rw [← ha]
          intro hmem
          rcases List.mem_cons.mp hmem with h3 | h3
          · exact hc h3.symm
          · exact hm h3

/-- Quote capture of a built quote-free prefix. -/
theorem takeToQuote_build : ∀ (a r : List Char), '"' ∉ a →
    takeToQuote (a ++ '"' :: r) = some (a, r) := by
  intro a
  induction a with
  | nil => intro r _; simp [takeToQuote]
  | cons c a2 ih =>
    intro r hm
    rw [List.cons_append, takeToQuote,
      if_neg (fun hc => hm (by simp [hc])), ih r (fun hmem => hm (by simp [hmem]))]

end MainTs

namespace MainTs

/-- Dropping the length of the satisfied prefix is `dropWhile`. -/
theorem drop_takeWhile_length (p : Char → Bool) (l : List Char) :
    l.drop (l.takeWhile p).length = l.dropWhile p := by
  induction l with
  | nil => rfl
  | cons c rest ih =>
    by_cases hp : p c
    · simp [List.takeWhile_cons, List.dropWhile_cons, hp, ih]
    · simp [List.takeWhile_cons, List.dropWhile_cons, hp]

/-- `takeWhile`/`dropWhile` on a fully satisfied prefix followed by a
non-satisfying head. -/
theorem takeWhile_all_append (p : Char → Bool) (z X : List Char)
    (hz : ∀ c ∈ z, p c = true) (hX : ∀ c, X.head? = some c → p c = false) :
    (z ++ X).takeWhile p = z ∧ (z ++ X).dropWhile p = X := by
  induction z with
  | nil =>
    rcases X with _ | ⟨c, X2⟩
    · exact ⟨rfl, rfl⟩
    · have := hX c rfl
      simp [List.takeWhile_cons, List.dropWhile_cons, this]
  | cons c z2 ih =>
    have hc := hz c (by simp)
    have ih2 := ih (fun d hd => hz d (by simp [hd]))
    simp [List.takeWhile_cons, List.dropWhile_cons, hc, ih2.1, ih2.2]

/-- A successful placeholder match decomposes its input into the matched text
and the remainder, the matched text has the certified shape, and the
remainder does not begin with a zero-width space (the greedy `​+` run is
maximal). -/
theorem tryMatch_shape (cs full id url rest : List Char)
    (h : tryMatchPlaceholder cs = some (full, id, url, rest)) :
    cs = full ++ rest ∧ MatchShape full id url ∧ rest.head? ≠ some zwsp := by
  unfold tryMatchPlaceholder at h
  rcases h1 : matchLit litOpen cs with _ | r1 <;> simp only [h1] at h
  · exact absurd h (by simp)
  rcases h2 : matchLit litIdHead r1 with _ | r2 <;> simp only [h2] at h
  · exact absurd h (by simp)
  rcases h3 : takeToQuote r2 with _ | ⟨idTail, r3⟩ <;> simp only [h3] at h
  · exact absurd h (by simp)
  by_cases hIdne : idTail = []
  · rw [if_pos hIdne] at h
    exact absurd h (by simp)
  rw [if_neg hIdne] at h
  have hcs1 : cs = litOpen ++ r1 := matchLit_some _ _ _ h1
  have hcs2 : r1 = litIdHead ++ r2 := matchLit_some _ _ _ h2
  obtain ⟨hcs3, hIdq⟩ := takeToQuote_some _ _ _ h3
  rcases h4 : tryUrlAttr r3 with _ | ⟨ws, urlVal, r4⟩ <;> simp only [h4] at h
  · rcases h5 : matchLit litClose r3 with _ | r5 <;> simp only [h5] at h
    · exact absurd h (by simp)
    have hcs5 : r3 = litClose ++ r5 := matchLit_some _ _ _ h5
    simp only [Option.some.injEq, Prod.mk.injEq] at h
    obtain ⟨hfull, hid, hurl, hrest⟩ := h
    have hz : ∀ c ∈ r5.takeWhile (fun c => c = zwsp), c = zwsp := by
      intro c hc
      simpa using List.mem_takeWhile_imp hc
    refine ⟨?_, ⟨idTail, litClose, r5.takeWhile (fun c => c = zwsp),
      hid.symm, hIdne, hIdq, ?_, Or.inl ⟨rfl, hurl.symm⟩, hz, ?_⟩, ?_⟩
    · rw [hcs1, hcs2, hcs3, hcs5, ← hrest, ← hfull]
      simp only [drop_takeWhile_length, List.append_assoc, List.cons_append]
      rw [List.takeWhile_append_dropWhile]
    · rw [← hurl]
      simp
    · rw [← hfull, ← hid]
    · rw [← hrest, drop_takeWhile_length]
      have := List.head?_dropWhile_not (fun c => c = zwsp) r5
      intro hcon
      rw [hcon] at this
      simp at this
  · rcases h5 : matchLit litClose r4 with _ | r5 <;> simp only [h5] at h
    · exact absurd h (by simp)
    have hcs5 : r4 = litClose ++ r5 := matchLit_some _ _ _ h5
    unfold tryUrlAttr at h4
    dsimp only at h4
    by_cases hws : r3.takeWhile jsWhitespace = []
    · rw [if_pos hws] at h4
      exact absurd h4 (by simp)
    rw [if_neg hws] at h4
    rcases h6 : matchLit litUrlAttr (r3.drop (r3.takeWhile jsWhitespace).length)
        with _ | r6 <;> simp only [h6] at h4
    · exact absurd h4 (by simp)
    rcases h7 : takeToQuote r6 with _ | ⟨uv, r7⟩ <;> simp only [h7] at h4
    · exact absurd h4 (by simp)
    simp only [Option.some.injEq, Prod.mk.injEq] at h4
    obtain ⟨hws2, huv, hr7⟩ := h4
    simp only [Option.some.injEq, Prod.mk.injEq] at h
    obtain ⟨hfull, hid, hurl, hrest⟩ := h
    have hcs6 : r3.drop (r3.takeWhile jsWhitespace).length = litUrlAttr ++ r6 :=
      matchLit_some _ _ _ h6
    obtain ⟨hcs7, hUq⟩ := takeToQuote_some _ _ _ h7
    have hz : ∀ c ∈ r5.takeWhile (fun c => c = zwsp), c = zwsp := by
      intro c hc
      simpa using List.mem_takeWhile_imp hc
    have hwsmem : ∀ c ∈ r3.takeWhile jsWhitespace, jsWhitespace c = true := by
      intro c hc
      exact List.mem_takeWhile_imp hc
    have hr3 : r3 = r3.takeWhile jsWhitespace ++ (litUrlAttr ++ r6) := by
      conv_lhs => rw [← List.takeWhile_append_dropWhile jsWhitespace r3]
      rw [← drop_takeWhile_length jsWhitespace r3, hcs6]
    refine ⟨?_, ⟨idTail, r3.takeWhile jsWhitespace ++ litUrlAttr ++ url ++ '"' :: litClose,
      r5.takeWhile (fun c => c = zwsp),
      hid.symm, hIdne, hIdq, ?_, Or.inr ⟨r3.takeWhile jsWhitespace, hws, hwsmem, rfl⟩,
      hz, ?_⟩, ?_⟩
    · rw [hcs1, hcs2, hcs3, hr3, hcs7, hr7, hcs5, ← hrest, ← hfull, ← huv, ← hws2]
      simp only [drop_takeWhile_length, List.append_assoc, List.cons_append]
      rw [List.takeWhile_append_dropWhile]
    · rw [← hurl, ← huv]
      exact hUq
    · rw [← hfull, ← hid, ← hws2, ← huv, ← hurl]
      simp [List.append_assoc, huv]
    · rw [← hrest, drop_takeWhile_length]
      have := List.head?_dropWhile_not (fun c => c = zwsp) r5
      intro hcon
      rw [hcon] at this
      simp at this

end MainTs

namespace MainTs

/-- A span with the certified shape matches again in front of any text that
does not begin with a zero-width space, producing exactly the same captures. -/
theorem tryMatch_rebuild (full id url X : List Char)
    (hs : MatchShape full id url) (hX : X.head? ≠ some zwsp) :
    tryMatchPlaceholder (full ++ X) = some (full, id, url, X) := by
  obtain ⟨idTail, mid, z, hid, hIdne, hIdq, hUq, hmid, hz, hfull⟩ := hs
  subst hfull
  subst hid
  have hzsat : ∀ c ∈ z, (fun c => decide (c = zwsp)) c = true := by
    intro c hc
    simp [hz c hc]
  have hXfail : ∀ c, X.head? = some c → (fun c => decide (c = zwsp)) c = false := by
    intro c hc
    by_cases hcz : c = zwsp
    · rw [hcz] at hc
      exact absurd hc hX
    · simp [hcz]
  have hztake := takeWhile_all_append (fun c => decide (c = zwsp)) z X hzsat hXfail
  unfold tryMatchPlaceholder
  rw [show (litOpen ++ (litIdHead ++ idTail) ++ '"' :: mid ++ z) ++ X
      = litOpen ++ (litIdHead ++ (idTail ++ '"' :: (mid ++ (z ++ X)))) from by
    simp [List.append_assoc]]
  simp only [matchLit_self, takeToQuote_build idTail (mid ++ (z ++ X)) hIdq, if_neg hIdne]
  rcases hmid with ⟨hmidC, hunil⟩ | ⟨ws, hwsne, hwsmem, hmidW⟩
  · subst hmidC
    subst hunil
    have hua : tryUrlAttr (litClose ++ (z ++ X)) = none := by
      unfold tryUrlAttr
      rw [show litClose ++ (z ++ X) = '>' :: (litClose.tail ++ (z ++ X)) from rfl]
      rw [List.takeWhile_cons, show jsWhitespace '>' = false from by decide]
      simp
    simp only [hua, matchLit_self, hztake.1, List.drop_left]
  · subst hmidW
    have hwsfail : ∀ c, (litUrlAttr ++ (url ++ '"' :: (litClose ++ (z ++ X)))).head? = some c →
        jsWhitespace c = false := by
      intro c hc
      rw [show (litUrlAttr ++ (url ++ '"' :: (litClose ++ (z ++ X)))).head? = some 'u' from rfl]
        at hc
      simp only [Option.some.injEq] at hc
      rw [← hc]
      decide
    have hwstake := takeWhile_all_append jsWhitespace ws
      (litUrlAttr ++ (url ++ '"' :: (litClose ++ (z ++ X)))) hwsmem hwsfail
    have hua : tryUrlAttr ((ws ++ litUrlAttr ++ url ++ '"' :: litClose) ++ (z ++ X)) =
        some (ws, url, litClose ++ (z ++ X)) := by
      unfold tryUrlAttr
      rw [show (ws ++ litUrlAttr ++ url ++ '"' :: litClose) ++ (z ++ X)
          = ws ++ (litUrlAttr ++ (url ++ '"' :: (litClose ++ (z ++ X)))) from by
        simp [List.append_assoc]]
      rw [hwstake.1]
      dsimp only
      rw [if_neg hwsne,
        show (ws ++ (litUrlAttr ++ (url ++ '"' :: (litClose ++ (z ++ X))))).drop ws.length
          = litUrlAttr ++ (url ++ '"' :: (litClose ++ (z ++ X))) from List.drop_left ws _]
      simp only [matchLit_self, takeToQuote_build url (litClose ++ (z ++ X)) hUq]
    simp only [hua, matchLit_self, hztake.1, List.drop_left]

end MainTs

/-- Splitting an append equation at the shorter left part. -/
theorem append_eq_of_le : ∀ (s t p b : List Char), s ++ t = p ++ b →
    s.length ≤ p.length → ∃ q, p = s ++ q ∧ t = q ++ b := by
  intro s
  induction s with
  | nil =>
    intro t p b h _
    exact ⟨p, rfl, h⟩
  | cons c s2 ih =>
    intro t p b h hl
    rcases p with _ | ⟨d, p2⟩
    · simp at hl
    · simp only [List.cons_append, List.cons.injEq] at h
      obtain ⟨hc, h2⟩ := h
      simp only [List.length_cons, Nat.succ_le_succ_iff] at hl
      obtain ⟨q, hq1, hq2⟩ := ih t p2 b h2 hl
      exact ⟨q, by rw [List.cons_append, hc, hq1], hq2⟩

/-- Splitting an append equation when the left part is strictly longer:
the right prefix is a proper prefix of it. -/
theorem append_eq_of_lt (s t p b : List Char) (h : p ++ b = s ++ t)
    (hl : p.length < s.length) : ∃ q, q ≠ [] ∧ s = p ++ q ∧ b = q ++ t := by
  obtain ⟨q, hq1, hq2⟩ := append_eq_of_le p b s t h (Nat.le_of_lt hl)
  refine ⟨q, ?_, hq1, hq2⟩
  intro hnil
  rw [hnil, List.append_nil] at hq1
  rw [hq1] at hl
  exact Nat.lt_irrefl _ hl

/-- Two decompositions at the first quote of the same text agree. -/
theorem first_quote_eq : ∀ (x v u w : List Char), '"' ∉ x → '"' ∉ v →
    x ++ '"' :: u = v ++ '"' :: w → x = v ∧ u = w := by
  intro x
  induction x with
  | nil =>
    intro v u w _ hv h
    rcases v with _ | ⟨d, v2⟩
    · simp only [List.nil_append, List.cons.injEq] at h
      exact ⟨rfl, h.2⟩
    · simp only [List.nil_append, List.cons_append, List.cons.injEq] at h
      exact absurd (by simp [← h.1]) hv
  | cons c x2 ih =>
    intro v u w hx hv h
    rcases v with _ | ⟨d, v2⟩
    · simp only [List.cons_append, List.nil_append, List.cons.injEq] at h
      exact absurd (by simp [h.1]) hx
    · simp only [List.cons_append, List.cons.injEq] at h
      obtain ⟨hcd, h2⟩ := h
      have := ih v2 u w (fun hm => hx (by simp [hm])) (fun hm => hv (by simp [hm])) h2
      exact ⟨by rw [hcd, this.1], this.2⟩

/-- Dropping within the left part of an append. -/
theorem drop_append_le : ∀ (u v : List Char) (k : Nat), k ≤ u.length →
    (u ++ v).drop k = u.drop k ++ v := by
  intro u
  induction u with
  | nil =>
    intro v k hk
    simp only [List.length_nil, Nat.le_zero] at hk
    rw [hk]
    rfl
  | cons c u2 ih =>
    intro v k hk
    rcases k with _ | k2
    · rfl
    · simp only [List.length_cons, Nat.succ_le_succ_iff] at hk
      simp only [List.cons_append, List.drop_succ_cons]
      exact ih v k2 hk

namespace MainTs

/-- A matched placeholder text begins with `<`. -/
theorem matchShape_head (full id url : List Char) (h : MatchShape full id url) :
    full.head? = some '<' := by
  obtain ⟨idTail, mid, z, _, _, _, _, _, _, hfull⟩ := h
  rw [hfull]
  rfl

/-- A matched placeholder text is nonempty. -/
theorem matchShape_ne_nil (full id url : List Char) (h : MatchShape full id url) :
    full ≠ [] := by
  intro hnil
  have := matchShape_head full id url h
  rw [hnil] at this
  exact absurd this (by simp)

end MainTs

/-- Dropping past the left part of an append. -/
theorem drop_append_ge : ∀ (u v : List Char) (k : Nat), u.length ≤ k →
    (u ++ v).drop k = v.drop (k - u.length) := by
  intro u
  induction u with
  | nil => intro v k _; simp
  | cons c u2 ih =>
    intro v k hk
    rcases k with _ | k2
    · simp at hk
    · simp only [List.cons_append, List.drop_succ_cons, List.length_cons]
      rw [ih v k2 (by simpa using hk)]
      congr 1
      omega

namespace MainTs

/-- The placeholder pattern cannot match at a character other than `<`. -/
theorem tryMatch_none_of_head (c : Char) (X : List Char) (hc : c ≠ '<') :
    tryMatchPlaceholder (c :: X) = none := by
  unfold tryMatchPlaceholder
  rw [show litOpen = '<' :: ("span class=\"link-loading\" id=\"" : String).data from rfl,
    matchLit, if_neg hc]

/-- The inert span splits into its five regions. -/
theorem inactiveSpan_parts (id url : List Char) :
    inactiveSpan id url = iA ++ (id ++ (iB ++ (url ++ iC))) := by
  simp [inactiveSpan, iA, iB, iC, List.append_assoc]

end MainTs
namespace MainTs

theorem inactive_no_match (idI urlI : List Char) (hid : '"' ∉ idI) (hurl : '"' ∉ urlI)
    (k : Nat) (hk : k < (inactiveSpan idI urlI).length) (v : List Char) :
    tryMatchPlaceholder ((inactiveSpan idI urlI).drop k ++ v) = none := by
  have hlenA : iA.length = 40 := rfl
  have hlenB : iB.length = 7 := rfl
  have hlenC : iC.length = 26 := rfl
  rw [inactiveSpan_parts] at hk ⊢
  have hktot : k < 40 + (idI.length + (7 + (urlI.length + 26))) := by
    simpa [List.length_append, hlenA, hlenB, hlenC] using hk
  rcases Nat.lt_or_ge k 40 with h1 | h1
  · -- inside the fixed prefix region
    rw [drop_append_le _ _ k (by omega)]
    rcases Nat.eq_zero_or_pos k with hk0 | hkpos
    · subst hk0
      simp only [List.drop_zero]
      unfold tryMatchPlaceholder
      rw [show (iA ++ (idI ++ (iB ++ (urlI ++ iC)))) ++ v
          = iA ++ ((idI ++ (iB ++ (urlI ++ iC))) ++ v) from by simp [List.append_assoc],
        show ∀ X, matchLit litOpen (iA ++ X) = none from fun X => rfl]
    · have hbound : k < iA.length := by omega
      rw [List.drop_eq_getElem_cons hbound, List.cons_append]
      have hA : ∀ j, ∀ hj : j < iA.length, 1 ≤ j → ¬ iA[j] = '<' := by decide
      exact tryMatch_none_of_head _ _ (hA k hbound hkpos)
  · rw [drop_append_ge _ _ k (by omega), hlenA]
    rcases Nat.lt_or_ge k (40 + idI.length) with h2 | h2
    · -- inside the id region
      rw [drop_append_le _ _ _ (by omega)]
      rcases hres : tryMatchPlaceholder ((idI.drop (k - 40) ++ (iB ++ (urlI ++ iC))) ++ v)
        with _ | ⟨f, i, u, r⟩
      · rfl
      · exfalso
        obtain ⟨heq, hshape, _⟩ := tryMatch_shape _ f i u r hres
        obtain ⟨idT, mid, z, hi, hTne, hTq, hUq, hmidc, hzz, hf⟩ := hshape
        have hl : (idI.drop (k - 40) ++ (iB ++ (urlI ++ iC))) ++ v
            = idI.drop (k - 40) ++ '"' :: (iBt ++ (urlI ++ (iC ++ v))) := by
          rw [show iB = '"' :: iBt from rfl]
          simp [List.append_assoc]
        have hr : f ++ r = lo12 ++ '"' :: (lo18 ++ (i ++ '"' :: (mid ++ (z ++ r)))) := by
          rw [hf, show litOpen = lo12 ++ '"' :: lo18 from rfl]
          simp [List.append_assoc]
        have hcomb := (hl.symm.trans heq).trans hr
        obtain ⟨-, h5⟩ := first_quote_eq _ _ _ _
          (fun hm => hid (List.mem_of_mem_drop hm)) (by decide) hcomb
        have e1 : (iBt ++ (urlI ++ (iC ++ v))).head? = some ' ' := rfl
        rw [h5, show (lo18 ++ (i ++ '"' :: (mid ++ (z ++ r)))).head? = some 'l' from rfl] at e1
        simp at e1
    · rw [drop_append_ge _ _ _ (by omega)]
      rcases Nat.lt_or_ge k (40 + idI.length + 7) with h3 | h3
      · -- inside the middle fixed region
        rw [drop_append_le _ _ _ (by omega)]
        have hbound : k - 40 - idI.length < iB.length := by omega
        rw [List.drop_eq_getElem_cons hbound]
        simp only [List.cons_append]
        have hB : ∀ j, ∀ hj : j < iB.length, ¬ iB[j] = '<' := by decide
        exact tryMatch_none_of_head _ _ (hB _ hbound)
      · rw [drop_append_ge _ _ _ (by omega), hlenB]
        rcases Nat.lt_or_ge k (40 + idI.length + 7 + urlI.length) with h4 | h4
        · -- inside the url region
          rw [drop_append_le _ _ _ (by omega)]
          rcases hres : tryMatchPlaceholder ((urlI.drop (k - 40 - idI.length - 7) ++ iC) ++ v)
            with _ | ⟨f, i, u, r⟩
          · rfl
          · exfalso
            obtain ⟨heq, hshape, _⟩ := tryMatch_shape _ f i u r hres
            obtain ⟨idT, mid, z, hi, hTne, hTq, hUq, hmidc, hzz, hf⟩ := hshape
            have hl : (urlI.drop (k - 40 - idI.length - 7) ++ iC) ++ v
                = urlI.drop (k - 40 - idI.length - 7) ++ '"' :: (iCt ++ v) := by
              rw [show iC = '"' :: iCt from rfl]
              simp [List.append_assoc]
            have hr : f ++ r = lo12 ++ '"' :: (lo18 ++ (i ++ '"' :: (mid ++ (z ++ r)))) := by
              rw [hf, show litOpen = lo12 ++ '"' :: lo18 from rfl]
              simp [List.append_assoc]
            have hcomb := (hl.symm.trans heq).trans hr
            obtain ⟨-, h5⟩ := first_quote_eq _ _ _ _
              (fun hm => hurl (List.mem_of_mem_drop hm)) (by decide) hcomb
            have e1 : (iCt ++ v).head? = some '>' := rfl
            rw [h5, show (lo18 ++ (i ++ '"' :: (mid ++ (z ++ r)))).head? = some 'l' from rfl] at e1
            simp at e1
        · -- inside the closing fixed region
          rw [drop_append_ge _ _ _ (by omega)]
          have hbound : k - 40 - idI.length - 7 - urlI.length < iC.length := by omega
          rcases Nat.decEq (k - 40 - idI.length - 7 - urlI.length) 19 with h19 | h19
          case isFalse =>
            rw [List.drop_eq_getElem_cons hbound]
            simp only [List.cons_append]
            have hC : ∀ j, ∀ hj : j < iC.length, j ≠ 19 → ¬ iC[j] = '<' := by decide
            exact tryMatch_none_of_head _ _ (hC _ hbound h19)
          case isTrue =>
            rw [h19, show iC.drop 19 = '<' :: '/' :: ("span>" : String).data from rfl]
            simp only [List.cons_append]
            unfold tryMatchPlaceholder
            rw [show ∀ X, matchLit litOpen ('<' :: '/' :: X) = none from fun X => rfl]

end MainTs
namespace MainTs

theorem no_suffix_closing (idI urlI p q z r Y : List Char)
    (hz : ∀ c ∈ z, c = zwsp)
    (he : litClose ++ z = p ++ q) (hqne : q ≠ [])
    (hiq : inactiveSpan idI urlI ++ Y = q ++ r) : False := by
  have hqh : q.head? = some '<' := by
    rcases q with _ | ⟨c, q2⟩
    · exact absurd rfl hqne
    · rw [inactiveSpan_parts, show iA = '<' :: ("span class=\"link-loading-inactive\" id=\"" : String).data from rfl] at hiq
      simp only [List.cons_append, List.append_assoc, List.cons.injEq] at hiq
      rw [List.head?_cons, ← hiq.1]
  rcases Nat.lt_or_ge p.length litClose.length with hlt | hge
  · obtain ⟨q4, hq4ne, hcl, hqq⟩ := append_eq_of_lt litClose z p q he.symm hlt
    have hq4 : q4 = litClose.drop p.length := by
      rw [hcl, drop_append_ge _ _ _ (Nat.le_refl _), Nat.sub_self, List.drop_zero]
    have hq4h : q4.head? = some '<' := by
      rcases q4 with _ | ⟨c4, q42⟩
      · exact absurd rfl hq4ne
      · rw [hqq] at hqh
        simpa using hqh
    have hplen : p.length < litClose.length := hlt
    have hp11 : p.length = 11 := by
      have hfact : ∀ j, ∀ hj : j < litClose.length, (litClose.drop j).head? = some '<' → j = 11 := by
        decide
      exact hfact p.length hplen (hq4 ▸ hq4h)
    rw [hp11, show litClose.drop 11 = '<' :: '/' :: ("span>" : String).data from rfl] at hq4
    rw [hq4] at hqq
    rw [hqq, inactiveSpan_parts,
      show iA = '<' :: 's' :: ("pan class=\"link-loading-inactive\" id=\"" : String).data from rfl] at hiq
    simp at hiq
  · obtain ⟨p5, hp5, hzq⟩ := append_eq_of_le litClose z p q he hge
    rcases q with _ | ⟨c, q2⟩
    · exact absurd rfl hqne
    · have hcmem : c ∈ z := by
        rw [hzq]
        simp
      have := hz c hcmem
      simp only [List.head?_cons, Option.some.injEq] at hqh
      rw [hqh] at this
      exact absurd this (by decide)

end MainTs
namespace MainTs

theorem noCross (p Y f r i2 u2 idI urlI : List Char) (hpne : p ≠ [])
    (hshape : MatchShape f i2 u2)
    (heq : p ++ (inactiveSpan idI urlI ++ Y) = f ++ r) :
    f.length ≤ p.length := by
  by_contra hnle
  have hlt : p.length < f.length := Nat.lt_of_not_le hnle
  obtain ⟨q, hqne, hfq, hiq⟩ := append_eq_of_lt f r p (inactiveSpan idI urlI ++ Y) heq hlt
  have hqh : q.head? = some '<' := by
    rcases q with _ | ⟨c, q2⟩
    · exact absurd rfl hqne
    · rw [inactiveSpan_parts, show iA = '<' :: ("span class=\"link-loading-inactive\" id=\"" : String).data from rfl] at hiq
      simp only [List.cons_append, List.append_assoc, List.cons.injEq] at hiq
      rw [List.head?_cons, ← hiq.1]
  obtain ⟨idT, mid, z, hi, hTne, hTq, hUq, hmidc, hzz, hf⟩ := hshape
  have hE : p ++ q = litOpen ++ (i2 ++ '"' :: (mid ++ z)) := by
    rw [← hfq, hf]
    simp [List.append_assoc]
  rcases Nat.lt_or_ge p.length litOpen.length with hc1 | hc1
  · obtain ⟨q2, hq2ne, hlo, hqq⟩ := append_eq_of_lt litOpen (i2 ++ '"' :: (mid ++ z)) p q hE hc1
    have hq2 : q2 = litOpen.drop p.length := by
      rw [hlo, drop_append_ge _ _ _ (Nat.le_refl _), Nat.sub_self, List.drop_zero]
    have hq2h : q2.head? = some '<' := by
      rcases q2 with _ | ⟨c2, q22⟩
      · exact absurd rfl hq2ne
      · rw [hqq] at hqh
        simpa using hqh
    have hfact : ∀ j, ∀ hj : j < litOpen.length, (litOpen.drop j).head? = some '<' → j = 0 := by
      decide
    have hp0 := hfact p.length hc1 (hq2 ▸ hq2h)
    rw [List.length_eq_zero] at hp0
    exact hpne hp0
  · obtain ⟨p2, hp2, hR⟩ := append_eq_of_le litOpen (i2 ++ '"' :: (mid ++ z)) p q hE.symm hc1
    rcases Nat.lt_or_ge p2.length i2.length with hc2 | hc2
    · obtain ⟨q3, hq3ne, hi2, hqq⟩ := append_eq_of_lt i2 ('"' :: (mid ++ z)) p2 q hR.symm hc2
      have hi2q : '"' ∉ i2 := by
        rw [hi]
        intro hm
        rcases List.mem_append.mp hm with hm1 | hm1
        · exact absurd hm1 (by decide)
        · exact hTq hm1
      have hq3q : '"' ∉ q3 := fun hm => hi2q (by rw [hi2]; exact List.mem_append.mpr (Or.inr hm))
      have hfq2 : q3 ++ '"' :: ((mid ++ z) ++ r)
          = lo12 ++ '"' :: (("link-loading-inactive\" id=\"" : String).data
            ++ (idI ++ (iB ++ (urlI ++ (iC ++ Y))))) := by
        calc q3 ++ '"' :: ((mid ++ z) ++ r) = q ++ r := by rw [hqq]; simp [List.append_assoc]
        _ = inactiveSpan idI urlI ++ Y := hiq.symm
        _ = _ := by
          rw [inactiveSpan_parts,
            show iA = lo12 ++ '"' :: ("link-loading-inactive\" id=\"" : String).data from rfl]
          simp [List.append_assoc]
      obtain ⟨-, h5⟩ := first_quote_eq _ _ _ _ hq3q (by decide) hfq2
      have e2 : ∀ X : List Char,
          ((("link-loading-inactive\" id=\"" : String).data) ++ X).head? = some 'l' :=
        fun X => rfl
      rcases hmidc with ⟨hmC, -⟩ | ⟨ws, hwsne, hwsmem, hmW⟩
      · rw [hmC] at h5
        have e1 : ((litClose ++ z) ++ r).head? = some '>' := rfl
        rw [h5, e2] at e1
        simp at e1
      · rw [hmW] at h5
        rcases ws with _ | ⟨w0, ws2⟩
        · exact absurd rfl hwsne
        · have e1 : ((((w0 :: ws2) ++ litUrlAttr ++ u2 ++ '"' :: litClose) ++ z) ++ r).head?
              = some w0 := by simp
          rw [h5, e2] at e1
          simp only [Option.some.injEq] at e1
          have := hwsmem w0 (by simp)
          rw [← e1] at this
          exact absurd this (by decide)
    · obtain ⟨p3, hp3, hR2⟩ := append_eq_of_le i2 ('"' :: (mid ++ z)) p2 q hR hc2
      rcases p3 with _ | ⟨c3, p4⟩
      · rw [List.nil_append] at hR2
        rw [← hR2] at hqh
        simp only [List.head?_cons, Option.some.injEq] at hqh
        exact absurd hqh (by decide)
      · simp only [List.cons_append, List.cons.injEq] at hR2
        obtain ⟨hc3, hmz⟩ := hR2
        rcases hmidc with ⟨hmC, -⟩ | ⟨ws, hwsne, hwsmem, hmW⟩
        · rw [hmC] at hmz
          exact no_suffix_closing idI urlI p4 q z r Y hzz hmz hqne hiq
        · rw [hmW] at hmz
          have hmz2 : ws ++ (litUrlAttr ++ (u2 ++ '"' :: (litClose ++ z))) = p4 ++ q := by
            rw [← hmz]
            simp [List.append_assoc]
          rcases Nat.lt_or_ge p4.length ws.length with hc4 | hc4
          · obtain ⟨q5, hq5ne, hws, hqq⟩ := append_eq_of_lt ws _ p4 q hmz2.symm hc4
            rcases q5 with _ | ⟨c5, q52⟩
            · exact absurd rfl hq5ne
            · have hc5m : c5 ∈ ws := by rw [hws]; simp
              have hc5w := hwsmem c5 hc5m
              rw [hqq] at hqh
              simp only [List.cons_append, List.head?_cons, Option.some.injEq] at hqh
              rw [hqh] at hc5w
              exact absurd hc5w (by decide)
          · obtain ⟨p5, hp5, hR3⟩ := append_eq_of_le ws _ p4 q hmz2 hc4
            rcases Nat.lt_or_ge p5.length litUrlAttr.length with hc5 | hc5
            · obtain ⟨q6, hq6ne, hua, hqq⟩ := append_eq_of_lt litUrlAttr _ p5 q hR3.symm hc5
              have hq6 : q6 = litUrlAttr.drop p5.length := by
                rw [hua, drop_append_ge _ _ _ (Nat.le_refl _), Nat.sub_self, List.drop_zero]
              have hq6h : q6.head? = some '<' := by
                rcases q6 with _ | ⟨c6, q62⟩
                · exact absurd rfl hq6ne
                · rw [hqq] at hqh
                  simpa using hqh
              have hfact : ∀ j, ∀ hj : j < litUrlAttr.length,
                  ¬ (litUrlAttr.drop j).head? = some '<' := by decide
              exact hfact p5.length hc5 (hq6 ▸ hq6h)
            · obtain ⟨p6, hp6, hR4⟩ := append_eq_of_le litUrlAttr _ p5 q hR3 hc5
              rcases Nat.lt_or_ge p6.length u2.length with hc6 | hc6
              · obtain ⟨q7, hq7ne, hu2, hqq⟩ := append_eq_of_lt u2 _ p6 q hR4.symm hc6
                have hq7q : '"' ∉ q7 :=
                  fun hm => hUq (by rw [hu2]; exact List.mem_append.mpr (Or.inr hm))
                have hfq2 : q7 ++ '"' :: ((litClose ++ z) ++ r)
                    = lo12 ++ '"' :: (("link-loading-inactive\" id=\"" : String).data
                      ++ (idI ++ (iB ++ (urlI ++ (iC ++ Y))))) := by
                  calc q7 ++ '"' :: ((litClose ++ z) ++ r) = q ++ r := by
                        rw [hqq]
                        simp [List.append_assoc]
                  _ = inactiveSpan idI urlI ++ Y := hiq.symm
                  _ = _ := by
                    rw [inactiveSpan_parts,
                      show iA = lo12 ++ '"' :: ("link-loading-inactive\" id=\"" : String).data
                        from rfl]
                    simp [List.append_assoc]
                obtain ⟨-, h5⟩ := first_quote_eq _ _ _ _ hq7q (by decide) hfq2
                have e1 : ((litClose ++ z) ++ r).head? = some '>' := rfl
                have e2 : ∀ X : List Char,
                    ((("link-loading-inactive\" id=\"" : String).data) ++ X).head? = some 'l' :=
                  fun X => rfl
                rw [h5, e2] at e1
                simp at e1
              · obtain ⟨p7, hp7, hR5⟩ := append_eq_of_le u2 _ p6 q hR4 hc6
                rcases p7 with _ | ⟨c7, p8⟩
                · rw [List.nil_append] at hR5
                  rw [← hR5] at hqh
                  simp only [List.head?_cons, Option.some.injEq] at hqh
                  exact absurd hqh (by decide)
                · simp only [List.cons_append, List.cons.injEq] at hR5
                  exact no_suffix_closing idI urlI p8 q z r Y hzz hR5.2 hqne hiq

end MainTs
namespace MainTs

theorem sweepF_fuel (active : Finset String) :
    ∀ n, ∀ cs : List Char, cs.length ≤ n → ∀ f f', cs.length ≤ f → cs.length ≤ f' →
      sweepF active f cs = sweepF active f' cs := by
  intro n
  induction n with
  | zero =>
    intro cs hcs f f' _ _
    have h0 : cs = [] := List.length_eq_zero.mp (Nat.le_zero.mp hcs)
    subst h0
    cases f <;> cases f' <;> rfl
  | succ m ih =>
    intro cs hcs f f' hf hf'
    rcases cs with _ | ⟨c, cs2⟩
    · cases f <;> cases f' <;> rfl
    · rcases f with _ | f1
      · simp at hf
      · rcases f' with _ | f2
        · simp at hf'
        · simp only [List.length_cons] at hcs hf hf'
          rcases hm : tryMatchPlaceholder (c :: cs2) with _ | ⟨full, id, url, rest⟩
          · simp only [sweepF, hm]
            rw [ih cs2 (by omega) f1 f2 (by omega) (by omega)]
          · obtain ⟨hsplit, hshape, -⟩ := tryMatch_shape _ _ _ _ _ hm
            have hfullne : full ≠ [] := matchShape_ne_nil _ _ _ hshape
            have hrest : rest.length ≤ cs2.length := by
              have hL := congrArg List.length hsplit
              rcases full with _ | ⟨a, fl⟩
              · exact absurd rfl hfullne
              · simp [List.length_append] at hL
                omega
            simp only [sweepF, hm]
            by_cases hmem : String.mk full ∈ active
            · simp only [if_pos hmem]
              rw [ih rest (by omega) f1 f2 (by omega) (by omega)]
            · simp only [if_neg hmem]
              rw [ih rest (by omega) f1 f2 (by omega) (by omega)]

theorem sweepF_walk (active : Finset String) :
    ∀ u v : List Char, ∀ f, (∀ k, k < u.length → tryMatchPlaceholder (u.drop k ++ v) = none) →
      u.length ≤ f → sweepF active f (u ++ v) = u ++ sweepF active (f - u.length) v := by
  intro u
  induction u with
  | nil =>
    intro v f _ _
    simp
  | cons c u2 ih =>
    intro v f hnm hf
    rcases f with _ | f1
    · simp at hf
    · have h0 := hnm 0 (by simp)
      simp only [List.drop_zero, List.cons_append] at h0
      simp only [List.cons_append, sweepF, List.append_eq, h0]
      rw [ih v f1 (fun k hk => by simpa using hnm (k+1) (by simpa using hk))
        (by simpa using hf)]
      simp [Nat.succ_sub_succ]

theorem sweep_head (active : Finset String) (t : List Char) (h : t.head? ≠ some zwsp) :
    (sweepF active t.length t).head? ≠ some zwsp := by
  rcases t with _ | ⟨c, t2⟩
  · intro hcon
    exact Option.noConfusion hcon
  · simp only [List.length_cons]
    rcases hm : tryMatchPlaceholder (c :: t2) with _ | ⟨full, id, url, rest⟩
    · simp only [sweepF, hm]
      simpa using h
    · obtain ⟨hsplit, hshape, -⟩ := tryMatch_shape _ _ _ _ _ hm
      simp only [sweepF, hm]
      by_cases hmem : String.mk full ∈ active
      · simp only [if_pos hmem]
        have hh := matchShape_head _ _ _ hshape
        rcases full with _ | ⟨a, fl⟩
        · exact absurd hh (by simp)
        · simp only [List.head?_cons, Option.some.injEq] at hh
          simp only [List.cons_append, List.head?_cons, hh, ne_eq, Option.some.injEq]
          decide
      · simp only [if_neg hmem]
        rw [inactiveSpan_parts,
          show iA = '<' :: ("span class=\"link-loading-inactive\" id=\"" : String).data from rfl]
        simp only [List.cons_append, List.head?_cons, ne_eq, Option.some.injEq]
        decide

theorem tryMatch_none_sweep (active : Finset String) :
    ∀ n, ∀ t p : List Char, t.length ≤ n → tryMatchPlaceholder (p ++ t) = none →
      tryMatchPlaceholder (p ++ sweepF active t.length t) = none := by
  intro n
  induction n with
  | zero =>
    intro t p ht hnone
    have h0 : t = [] := List.length_eq_zero.mp (Nat.le_zero.mp ht)
    subst h0
    exact hnone
  | succ m ih =>
    intro t p ht hnone
    rcases t with _ | ⟨c, t2⟩
    · exact hnone
    · simp only [List.length_cons] at ht ⊢
      rcases hm : tryMatchPlaceholder (c :: t2) with _ | ⟨full, id, url, rest⟩
      · simp only [sweepF, hm]
        have h2 := ih t2 (p ++ [c]) (by omega)
          (by rw [List.append_assoc]; simpa using hnone)
        simpa [List.append_assoc] using h2
      · obtain ⟨hsplit, hshape, hrh⟩ := tryMatch_shape _ _ _ _ _ hm
        have hfullne : full ≠ [] := matchShape_ne_nil _ _ _ hshape
        have hrest : rest.length ≤ t2.length := by
          have hL := congrArg List.length hsplit
          rcases full with _ | ⟨a, fl⟩
          · exact absurd rfl hfullne
          · simp [List.length_append] at hL
            omega
        simp only [sweepF, hm]
        rw [sweepF_fuel active t2.length rest hrest t2.length rest.length hrest (Nat.le_refl _)]
        by_cases hmem : String.mk full ∈ active
        · simp only [if_pos hmem]
          have h2 := ih rest (p ++ full) (by omega)
            (by rw [List.append_assoc, ← hsplit]; exact hnone)
          simpa [List.append_assoc] using h2
        · simp only [if_neg hmem]
          rcases hres : tryMatchPlaceholder
              (p ++ (inactiveSpan id url ++ sweepF active rest.length rest))
            with _ | ⟨f2, i3, u3, r3⟩
          · rfl
          · exfalso
            obtain ⟨heq2, hshape2, hrh2⟩ := tryMatch_shape _ _ _ _ _ hres
            rcases p with _ | ⟨p0, pr⟩
            · rw [List.nil_append] at hnone
              rw [hnone] at hm
              exact absurd hm (by simp)
            · have hple := noCross (p0 :: pr) (sweepF active rest.length rest) f2 r3 i3 u3
                id url (by simp) hshape2 heq2
              obtain ⟨ptail, hpt, hrt⟩ := append_eq_of_le f2 r3 (p0 :: pr)
                (inactiveSpan id url ++ sweepF active rest.length rest) heq2.symm hple
              have hhead : (ptail ++ (full ++ rest)).head? ≠ some zwsp := by
                rcases ptail with _ | ⟨d0, dt⟩
                · have hh := matchShape_head _ _ _ hshape
                  rcases full with _ | ⟨a, fl⟩
                  · exact absurd hh (by simp)
                  · simp only [List.head?_cons, Option.some.injEq] at hh
                    simp only [List.nil_append, List.cons_append, List.head?_cons, hh,
                      ne_eq, Option.some.injEq]
                    decide
                · rw [hrt] at hrh2
                  simpa using hrh2
              have hre := tryMatch_rebuild f2 i3 u3 (ptail ++ (full ++ rest)) hshape2 hhead
              rw [hsplit, hpt, List.append_assoc, hre] at hnone
              simp at hnone

end MainTs
namespace MainTs

theorem sweep_idem (active : Finset String) :
    ∀ n, ∀ t : List Char, t.length ≤ n →
      sweepF active (sweepF active t.length t).length (sweepF active t.length t)
        = sweepF active t.length t := by
  intro n
  induction n with
  | zero =>
    intro t ht
    have h0 : t = [] := List.length_eq_zero.mp (Nat.le_zero.mp ht)
    subst h0
    rfl
  | succ m ih =>
    intro t ht
    rcases t with _ | ⟨c, t2⟩
    · rfl
    · simp only [List.length_cons] at ht ⊢
      rcases hm : tryMatchPlaceholder (c :: t2) with _ | ⟨full, id, url, rest⟩
      · have hnm2 : tryMatchPlaceholder (c :: sweepF active t2.length t2) = none := by
          have h2 := tryMatch_none_sweep active t2.length t2 [c] (Nat.le_refl _)
            (by simpa using hm)
          simpa using h2
        simp only [sweepF, hm, List.length_cons, hnm2]
        rw [ih t2 (by omega)]
      · obtain ⟨hsplit, hshape, hrh⟩ := tryMatch_shape _ _ _ _ _ hm
        have hfullne : full ≠ [] := matchShape_ne_nil _ _ _ hshape
        have hrest : rest.length ≤ t2.length := by
          have hL := congrArg List.length hsplit
          rcases full with _ | ⟨a, fl⟩
          · exact absurd rfl hfullne
          · simp [List.length_append] at hL
            omega
        simp only [sweepF, hm]
        rw [sweepF_fuel active t2.length rest hrest t2.length rest.length hrest (Nat.le_refl _)]
        by_cases hmem : String.mk full ∈ active
        · simp only [if_pos hmem]
          have hh2 : (sweepF active rest.length rest).head? ≠ some zwsp :=
            sweep_head active rest hrh
          have hmm2 : tryMatchPlaceholder (full ++ sweepF active rest.length rest)
              = some (full, id, url, sweepF active rest.length rest) :=
            tryMatch_rebuild full id url (sweepF active rest.length rest) hshape hh2
          rcases full with _ | ⟨a, fl⟩
          · exact absurd rfl hfullne
          · simp only [List.cons_append] at hmm2 ⊢
            simp only [List.length_cons, sweepF, hmm2, if_pos hmem]
            rw [sweepF_fuel active (sweepF active rest.length rest).length
              (sweepF active rest.length rest) (Nat.le_refl _)
              (fl ++ sweepF active rest.length rest).length
              (sweepF active rest.length rest).length (by simp [List.length_append])
              (Nat.le_refl _)]
            rw [ih rest (by omega)]
            rfl
        · simp only [if_neg hmem]
          obtain ⟨idT, mid, z, hi, hTne, hTq, hUq, hmidc, hzz, hf⟩ := hshape
          have hidq : '"' ∉ id := by
            rw [hi]
            intro hmq
            rcases List.mem_append.mp hmq with h1 | h1
            · exact absurd h1 (by decide)
            · exact hTq h1
          have hwalk := sweepF_walk active (inactiveSpan id url)
            (sweepF active rest.length rest)
            (inactiveSpan id url ++ sweepF active rest.length rest).length
            (fun k hk => inactive_no_match id url hidq hUq k hk _)
            (by simp [List.length_append])
          rw [hwalk]
          congr 1
          rw [show (inactiveSpan id url ++ sweepF active rest.length rest).length
              - (inactiveSpan id url).length = (sweepF active rest.length rest).length from by
            simp [List.length_append]]
          exact ih rest (by omega)

end MainTs
namespace MainTs

/-- **C9.**  The orphan sweep is idempotent: a placeholder-shaped span absent
from the active set is rewritten to the inert `Failed to resolve` span exactly
once, and (second conjunct) an inert span whose embedded id and url are
quote-free — as every id and url captured from the placeholder pattern is —
never matches the placeholder pattern at its start, whatever follows it; hence
running `cleanupOrphanedPlaceholders` a second time leaves the document
unchanged (first conjunct). -/
theorem c9_sweep_idempotent :
    (∀ (active : Finset String) (doc : String),
      cleanupOrphanedPlaceholders active (cleanupOrphanedPlaceholders active doc)
        = cleanupOrphanedPlaceholders active doc) ∧
    (∀ id url : List Char, '"' ∉ id → '"' ∉ url →
      ∀ v : List Char, tryMatchPlaceholder (inactiveSpan id url ++ v) = none) := by
  constructor
  · intro active doc
    unfold cleanupOrphanedPlaceholders
    exact congrArg String.mk (sweep_idem active doc.data.length doc.data (Nat.le_refl _))
  · intro id url hid hurl v
    have hlen : 0 < (inactiveSpan id url).length := by
      rw [inactiveSpan_parts]
      simp only [List.length_append, show iA.length = 40 from rfl]
      omega
    have h0 := inactive_no_match id url hid hurl 0 hlen v
    simpa using h0

theorem c9_witness :
    tryMatchPlaceholder
      (inactiveSpan ("link-placeholder-a" : String).data ("u" : String).data ++ []) = none :=
  c9_sweep_idempotent.2 _ _ (by decide) (by decide) []

end MainTs
